import Mathlib

/-!
Verification of rapidfuzz-cpp: affix trimming, tokenisation and the Levenshtein
editops contract.

A shallow embedding of `rapidfuzz/details/common_impl.hpp` (affix trimming,
whitespace classification, `sorted_split`, `set_decomposition`) and of the fuzz
driver `fuzzing/fuzz_levenshtein_editops.cpp`.  The reference distance, the
editop reconstructor, `editops_apply` and the similarity ratio are declared
outside these sources; they are modelled from the specification and marked as
such.  The score vectors of the reconstructor are computed by the bit-parallel
kernel of the specification (Myers' recurrence on 64-bit words, with the carries
of the multi-word path), which is proved to yield the distances.

Conventions of the embedding:

* A `basic_string_view<CharT>` is a `List` of code units; `remove_prefix k`
  is `List.drop k`, `remove_suffix k` keeps the first `size - k` elements.
  Code units are natural numbers (their unsigned value) where the width matters.
* An iterator range `[first, last)` is the list of the elements still ahead
  of `first`; `++first` drops the head.  A reverse range is the reversed list.
* `std::distance(a.begin(), it)` is `a.length - (elements ahead of it)`.
* A thrown exception is `Except.error`.
-/

namespace rapidfuzz

/-! ## Definitions -/

namespace common

/-- Source `common::mismatch`: advance both iterators while neither range is exhausted
and the pointed-to elements are equal; return the two iterators. -/
def mismatch {α : Type} [DecidableEq α] : List α → List α → List α × List α
  | x :: xs, y :: ys => if x = y then mismatch xs ys else (x :: xs, y :: ys)
  | l1, l2 => (l1, l2)

/-- Library `basic_string_view::remove_prefix`: drop the first `n` elements. -/
def remove_prefix {α : Type} (a : List α) (n : Nat) : List α := a.drop n

/-- Library `basic_string_view::remove_suffix`: drop the last `n` elements. -/
def remove_suffix {α : Type} (a : List α) (n : Nat) : List α := a.take (a.length - n)

/-- Source `common::remove_common_prefix`: returns the prefix length together with the
two views after `remove_prefix`. -/
def remove_common_prefix {α : Type} [DecidableEq α] (a b : List α) : Nat × List α × List α :=
  let pfx := a.length - (mismatch a b).1.length
  (pfx, remove_prefix a pfx, remove_prefix b pfx)

/-- Source `common::remove_common_suffix`: the same scan over the reverse ranges. -/
def remove_common_suffix {α : Type} [DecidableEq α] (a b : List α) : Nat × List α × List α :=
  let sfx := a.reverse.length - (mismatch a.reverse b.reverse).1.length
  (sfx, remove_suffix a sfx, remove_suffix b sfx)

end common

/-- Record `StringAffix`: how much was trimmed at the front and at the back. -/
structure StringAffix where
  prefix_len : Nat
  suffix_len : Nat
  deriving DecidableEq, Repr

namespace common

/-- Source `common::remove_common_affix`: the braced initialiser evaluates
`remove_common_prefix` first and `remove_common_suffix` on the views it left. -/
def remove_common_affix {α : Type} [DecidableEq α] (a b : List α) :
    StringAffix × List α × List α :=
  let p := remove_common_prefix a b
  let s := remove_common_suffix p.2.1 p.2.2
  (⟨p.1, s.1⟩, s.2.1, s.2.2)

end common

/-! ### The reference distance, editops and their application -/

/-- One row of the textbook recurrence: the distances from `x :: xs` to every
suffix of the second sequence, given the distances `prev` from `xs` and the
length `n` of `xs`. -/
def levenshtein_row {α : Type} [DecidableEq α] (x : α) (prev : List α → Nat) (n : Nat) :
    List α → Nat
  | [] => n + 1
  | y :: ys =>
    min (min (1 + prev (y :: ys)) (1 + levenshtein_row x prev n ys))
      ((if x = y then 0 else 1) + prev ys)

/-- Modelled from the spec: `rapidfuzz_reference::levenshtein_distance` is not in
the sources at hand.  The glossary defines the distance as the minimum number of
single-element insertions, deletions and substitutions; this is the textbook
recurrence for that minimum with unit costs: against an empty sequence the
length of the other one, otherwise the cheapest of delete, insert and
replace-or-keep. -/
def levenshtein_distance {α : Type} [DecidableEq α] : List α → List α → Nat
  | [] => fun ys => ys.length
  | x :: xs => levenshtein_row x (levenshtein_distance xs) xs.length

/-- The kind of an edit operation (spec, data model). -/
inductive EditType where
  | Insert
  | Delete
  | Replace
  deriving DecidableEq, Repr

/-- Modelled from the spec: `Editop`, a tagged record
`{kind, source_index, dest_index}` (the type is declared outside these sources). -/
structure EditOp where
  kind : EditType
  source_index : Nat
  dest_index : Nat
  deriving DecidableEq, Repr

/-- Modelled from the spec: `Editops`, the ordered list of operations together
with the lengths of the two sequences it was computed for. -/
structure Editops where
  ops : List EditOp
  src_len : Nat
  dest_len : Nat
  deriving DecidableEq, Repr

/-- The error of `editops_apply` (spec, error handling). -/
inductive ApplyError where
  | InvalidEditops
  deriving DecidableEq, Repr

/-- The walk of `editops_apply` over the operations.  `src_pos` is the first
element of `s1` not yet copied or skipped, `dest_prev` the destination index of
the previous operation, `out` the output so far. -/
def editops_apply_walk {α : Type} (s1 s2 : List α) :
    List EditOp → Nat → Nat → List α → Except ApplyError (List α)
  | [], src_pos, _, out => Except.ok (out ++ s1.drop src_pos)
  | op :: rest, src_pos, dest_prev, out =>
    if op.source_index < src_pos ∨ op.dest_index < dest_prev then
      Except.error ApplyError.InvalidEditops
    else
      let out1 := out ++ (s1.drop src_pos).take (op.source_index - src_pos)
      match op.kind with
      | EditType.Insert =>
        if s1.length < op.source_index then Except.error ApplyError.InvalidEditops
        else
          match s2[op.dest_index]? with
          | some c => editops_apply_walk s1 s2 rest op.source_index op.dest_index (out1 ++ [c])
          | none => Except.error ApplyError.InvalidEditops
      | EditType.Delete =>
        if s1.length ≤ op.source_index ∨ s2.length < op.dest_index then
          Except.error ApplyError.InvalidEditops
        else editops_apply_walk s1 s2 rest (op.source_index + 1) op.dest_index out1
      | EditType.Replace =>
        if s1.length ≤ op.source_index then Except.error ApplyError.InvalidEditops
        else
          match s2[op.dest_index]? with
          | some c =>
            editops_apply_walk s1 s2 rest (op.source_index + 1) op.dest_index (out1 ++ [c])
          | none => Except.error ApplyError.InvalidEditops

/-- Modelled from the spec: `editops_apply` is not in the sources at hand.
Section 4.5: walk the operations in order; before each one copy the uncovered
run of `s1`; Insert copies `s2[dest_index]`, Delete skips `s1[source_index]`,
Replace emits `s2[dest_index]` and skips `s1[source_index]`; at the end copy the
remaining tail of `s1`.  Indices that go backwards or are out of range fail with
`InvalidEditops`. -/
def editops_apply {α : Type} (ops : Editops) (s1 s2 : List α) :
    Except ApplyError (List α) :=
  editops_apply_walk s1 s2 ops.ops 0 0 []

/-- Shift the indices of a list of operations by `(ds, dd)`. -/
def shift_ops (ds dd : Nat) (ops : List EditOp) : List EditOp :=
  ops.map (fun op => ⟨op.kind, op.source_index + ds, op.dest_index + dd⟩)

/-- Base case `|s1'| = 0`: Insert at `(0, j)` for each `j` in `[0, n)`. -/
def insert_all (n : Nat) : List EditOp :=
  (List.range n).map (fun j => ⟨EditType.Insert, 0, j⟩)

/-- Base case `|s2'| = 0`: Delete at `(i, 0)` for each `i` in `[0, m)`. -/
def delete_all (m : Nat) : List EditOp :=
  (List.range m).map (fun i => ⟨EditType.Delete, i, 0⟩)

/-- Base case `|s1'| = 1`: a linear scan of the target for the single source
element `x`.  It is aligned with its first occurrence, or replaced at column 0
when it does not occur; every other target element is inserted. -/
def scan_single_source {α : Type} [DecidableEq α] (x : α) (b : List α) : List EditOp :=
  let p := if x ∈ b then b.indexOf x else 0
  (List.range p).map (fun j => ⟨EditType.Insert, 0, j⟩) ++
    (if x ∈ b then [] else [⟨EditType.Replace, 0, 0⟩]) ++
    (List.range' (p + 1) (b.length - (p + 1))).map (fun j => ⟨EditType.Insert, 1, j⟩)

/-- Base case `|s2'| = 1`: a linear scan of the source for the single target
element `y`.  It is aligned with its first occurrence, or written by a Replace
at row 0 when it does not occur; every other source element is deleted. -/
def scan_single_dest {α : Type} [DecidableEq α] (a : List α) (y : α) : List EditOp :=
  let p := if y ∈ a then a.indexOf y else 0
  (List.range p).map (fun i => ⟨EditType.Delete, i, 0⟩) ++
    (if y ∈ a then [] else [⟨EditType.Replace, 0, 0⟩]) ++
    (List.range' (p + 1) (a.length - (p + 1))).map (fun i => ⟨EditType.Delete, i, 1⟩)

/-- Modelled from the spec: the machine word width `w` of the bit-parallel
kernel (section 9: the largest unsigned integer of the platform, commonly 64
bits).  A word is a natural number below `2 ^ w`. -/
def word_bits : Nat := 64

/-- Bitwise complement `~x` of a `w`-bit word. -/
def word_not (w x : Nat) : Nat := (2 ^ w - 1) - x % 2 ^ w

/-- Pattern match vector of one chunk of the pattern: bit `k` is set when element
`k` of the chunk equals `c`. -/
def pattern_mask {α : Type} [DecidableEq α] (c : α) : List α → Nat
  | [] => 0
  | x :: xs => (if x = c then 1 else 0) + 2 * pattern_mask c xs

/-- Number of `w`-bit words for a pattern of length `m`: `⌈m / w⌉`. -/
def word_count (w m : Nat) : Nat := (m + w - 1) / w

/-- Modelled from the spec: the character-position index is not in the sources
at hand.  Sections 3 and 4.2: the lookup `bitmask(c, word_j)` gives the word-`j`
mask of `c`, whose bit `k` is set if `P[j * w + k]` equals `c`; it is all-zero
if `c` is not in the pattern.  The index is read here straight off the pattern. -/
def bitmask {α : Type} [DecidableEq α] (w : Nat) (pattern : List α) (c : α) (word_j : Nat) :
    Nat :=
  pattern_mask c ((pattern.drop (word_j * w)).take w)

/-- The registers of one word after a step of the kernel. -/
structure MyersWord where
  VP : Nat
  VN : Nat
  HP : Nat
  HN : Nat
  deriving DecidableEq, Repr

/-- Modelled from the spec: the bit-parallel kernel is not in the sources at
hand.  Section 4.3, the recurrence on one `w`-bit word:
`X = PM | VN`, `D0 = (((X & VP) + VP) ^ VP) | X`, `HP = VN | ~(D0 | VP)`,
`HN = VP & D0`; then `HP` and `HN` are shifted left by one and
`VP = HN | ~(D0 | HP_shifted)`, `VN = D0 & HP_shifted`.  The addition is taken
modulo `2 ^ w` and its carry is passed on (section 9), as are the bits shifted out
of `HP` and `HN`; `add_carry`, `hp_carry` and `hn_carry` come from the word below.
Returns the registers (`HP`, `HN` before the shift) and the three carries out. -/
def myers_word_step (w PM VP VN add_carry hp_carry hn_carry : Nat) :
    MyersWord × Nat × Nat × Nat :=
  let X := PM ||| VN
  let sum := (X &&& VP) + VP + add_carry
  let D0 := ((sum % 2 ^ w) ^^^ VP) ||| X
  let HP := VN ||| word_not w (D0 ||| VP)
  let HN := VP &&& D0
  let HPs := ((HP <<< 1) ||| hp_carry) % 2 ^ w
  let HNs := ((HN <<< 1) ||| hn_carry) % 2 ^ w
  (⟨HNs ||| word_not w (D0 ||| HPs), D0 &&& HPs, HP, HN⟩,
    sum / 2 ^ w, HP >>> (w - 1), HN >>> (w - 1))

/-- Modelled from the spec: section 4.3, the single-word fast path (pattern length
at most `w`): the sweep over the target with `VP`, `VN` in one word.  Each step
sets bit 0 of the shifted `HP`; the distance goes up when the top bit (bit
`m - 1`) of `HP` is set and down when the top bit of `HN` is set.  The result
lists the distance before each target element and after the last one. -/
def myers_sweep_word {α : Type} [DecidableEq α] (w : Nat) (pattern : List α) :
    List α → Nat → Nat → Nat → List Nat
  | [], _, _, distance => [distance]
  | t :: ts, VP, VN, distance =>
    let x := (myers_word_step w (bitmask w pattern t 0) VP VN 0 1 0).1
    let top := pattern.length - 1
    let d1 := if x.HP.testBit top then distance + 1 else distance
    let d2 := if x.HN.testBit top then d1 - 1 else d1
    distance :: myers_sweep_word w pattern ts x.VP x.VN d2

/-- Modelled from the spec: section 4.3, the multi-word path for one target
element: the recurrence across the words of the pattern, lowest word first, the
carries running from each word into the next. -/
def myers_block_step (w : Nat) :
    List Nat → List (Nat × Nat) → Nat → Nat → Nat → List MyersWord
  | PM :: PMs, (VP, VN) :: state, add_carry, hp_carry, hn_carry =>
    let r := myers_word_step w PM VP VN add_carry hp_carry hn_carry
    r.1 :: myers_block_step w PMs state r.2.1 r.2.2.1 r.2.2.2
  | _, _, _, _, _ => []

/-- Initial state of the multi-word path: `VP` all-ones over the pattern length,
`VN = 0`, one `(VP, VN)` pair per word. -/
def myers_initial_state (w m : Nat) : List (Nat × Nat) :=
  (List.range (word_count w m)).map (fun j => (2 ^ (min w (m - j * w)) - 1, 0))

/-- Modelled from the spec: section 4.3, the multi-word path: the sweep over the
target.  The distance update is observed only on the word containing bit
position `m - 1`, word `(m - 1) / w` at bit `(m - 1) % w`; bit 0 of the shifted
`HP` of the lowest word is set. -/
def myers_sweep {α : Type} [DecidableEq α] (w : Nat) (pattern : List α) :
    List α → List (Nat × Nat) → Nat → List Nat
  | [], _, distance => [distance]
  | t :: ts, state, distance =>
    let words := myers_block_step w
      ((List.range (word_count w pattern.length)).map (bitmask w pattern t)) state 0 1 0
    let last := words.getD ((pattern.length - 1) / w) ⟨0, 0, 0, 0⟩
    let top := (pattern.length - 1) % w
    let d1 := if last.HP.testBit top then distance + 1 else distance
    let d2 := if last.HN.testBit top then d1 - 1 else d1
    distance :: myers_sweep w pattern ts (words.map (fun x => (x.VP, x.VN))) d2

/-- Modelled from the spec: the Myers score vector of pattern `a` over target `b`
on `w`-bit words (sections 4.3 and 4.4): entry `c`, for `c` in `[0, |b|]`, is the
distance the kernel holds after `c` target elements.  An empty pattern is the
degenerate case (the distance is the length of the other operand); otherwise the
initial state is `VP` all-ones over the pattern length, `VN = 0`, `distance = m`,
on the single-word fast path when `m ≤ w` and on the multi-word path beyond. -/
def myers_score_vector {α : Type} [DecidableEq α] (w : Nat) (a b : List α) : List Nat :=
  if a.length = 0 then List.range (b.length + 1)
  else if a.length ≤ w then myers_sweep_word w a b (2 ^ a.length - 1) 0 a.length
  else myers_sweep w a b (myers_initial_state w a.length) a.length

/-- Modelled from the spec: the score vector of the divide step (section 4.4) over
`(a, b)`, computed by the bit-parallel kernel of section 4.3 on words of
`word_bits` bits. -/
def score_vector {α : Type} [DecidableEq α] (a b : List α) : List Nat :=
  myers_score_vector word_bits a b

/-- Leftmost index in `[0, n]` at which `f` is smallest. -/
def leftmost_argmin (f : Nat → Nat) : Nat → Nat
  | 0 => 0
  | n + 1 => if f (n + 1) < f (leftmost_argmin f n) then n + 1 else leftmost_argmin f n

/-- The midpoint column of the divide step: the leftmost `c` that minimises
`forward[c] + reverse[|s2'| - c]`, the forward vector taken over
`(s1'[0..r], s2')` and the reverse one over the reversed second half and the
reversed target. -/
def midpoint_column {α : Type} [DecidableEq α] (a b : List α) (r : Nat) : Nat :=
  let forward := score_vector (a.take r) b
  let reverse := score_vector (a.drop r).reverse b.reverse
  leftmost_argmin (fun c => forward.getD c 0 + reverse.getD (b.length - c) 0) b.length

/-- The inner recursion of the editop reconstructor (spec section 4.4) on the
trimmed views, with indices local to the views: the degenerate cases, then the
divide step at row `r = |s1'| / 2` and the midpoint column, the second half
shifted by `(r, c)`.  `fuel` bounds the recursion depth; `|s1'|` is always
enough. -/
def hirschberg {α : Type} [DecidableEq α] : Nat → List α → List α → List EditOp
  | _, [], b => insert_all b.length
  | _, x :: xs, [] => delete_all (x :: xs).length
  | _, [x], y :: ys => scan_single_source x (y :: ys)
  | _, x1 :: x2 :: xs, [y] => scan_single_dest (x1 :: x2 :: xs) y
  | 0, _ :: _ :: _, _ :: _ :: _ => []
  | fuel + 1, x1 :: x2 :: xs, y1 :: y2 :: ys =>
    let r := (x1 :: x2 :: xs).length / 2
    let c := midpoint_column (x1 :: x2 :: xs) (y1 :: y2 :: ys) r
    hirschberg fuel ((x1 :: x2 :: xs).take r) ((y1 :: y2 :: ys).take c) ++
      shift_ops r c (hirschberg fuel ((x1 :: x2 :: xs).drop r) ((y1 :: y2 :: ys).drop c))

/-- Modelled from the spec: `levenshtein_editops` is not in the sources at hand.
Section 4.4: trim the common prefix and suffix, run the inner recursion on the
trimmed views, shift every index by `prefix_len`, and record the lengths of the
two inputs. -/
def levenshtein_editops {α : Type} [DecidableEq α] (s1 s2 : List α) : Editops :=
  let t := common.remove_common_affix s1 s2
  ⟨shift_ops t.1.prefix_len t.1.prefix_len (hirschberg t.2.1.length t.2.1 t.2.2),
    s1.length, s2.length⟩

/-- Modelled from the spec: `normalized_similarity` (section 4.6) is not in the
sources at hand.  Compute `d = distance(s1, s2)` and return
`100 * (1 - d / max(|s1|, |s2|))`, or 100 when both sequences are empty; a result
below `score_cutoff` is replaced by 0.  The score is an exact rational here. -/
def normalized_similarity {α : Type} [DecidableEq α] (s1 s2 : List α) (score_cutoff : ℚ) : ℚ :=
  let result : ℚ :=
    if s1.length = 0 ∧ s2.length = 0 then 100
    else 100 * (1 - (levenshtein_distance s1 s2 : ℚ) / (max s1.length s2.length : ℚ))
  if result < score_cutoff then 0 else result

/-- Modelled from the spec: `fuzz::ratio` is not in the sources at hand.  The spec
lists it among the simple wrappers built on the core distance; it is taken to be
the normalized similarity of section 4.6 with the default `score_cutoff` of 0. -/
def ratio {α : Type} [DecidableEq α] (s1 s2 : List α) : ℚ :=
  normalized_similarity s1 s2 0

/-! ### Tokenisation -/

/-- Source `is_space_impl(ch, integral_constant<int, 0>)`: the `switch` for code units of
at least two bytes. -/
def is_space_impl_0 (ch : Nat) : Bool :=
  ch == 0x0009 || ch == 0x000A || ch == 0x000B || ch == 0x000C || ch == 0x000D ||
  ch == 0x001C || ch == 0x001D || ch == 0x001E || ch == 0x001F || ch == 0x0020 ||
  ch == 0x0085 || ch == 0x00A0 || ch == 0x1680 || ch == 0x2000 || ch == 0x2001 ||
  ch == 0x2002 || ch == 0x2003 || ch == 0x2004 || ch == 0x2005 || ch == 0x2006 ||
  ch == 0x2007 || ch == 0x2008 || ch == 0x2009 || ch == 0x200A || ch == 0x2028 ||
  ch == 0x2029 || ch == 0x202F || ch == 0x205F || ch == 0x3000

/-- Source `is_space_impl(ch, integral_constant<int, 1>)`: the `switch` for one-byte
code units. -/
def is_space_impl_1 (ch : Nat) : Bool :=
  ch == 0x0009 || ch == 0x000A || ch == 0x000B || ch == 0x000C || ch == 0x000D ||
  ch == 0x001C || ch == 0x001D || ch == 0x001E || ch == 0x001F || ch == 0x0020

/-- Source `is_space_dispatch_tag<CharT>::value`, from `sizeof(CharT)`. -/
def is_space_dispatch_tag (sizeof_CharT : Nat) : Nat :=
  if sizeof_CharT = 1 then 1 else 0

/-- Source `is_space<CharT>`: tag dispatch on the code-unit width. -/
def is_space (sizeof_CharT : Nat) (ch : Nat) : Bool :=
  if is_space_dispatch_tag sizeof_CharT = 1 then is_space_impl_1 ch else is_space_impl_0 ch

/-- Library `std::find_if(first, last, pred)`: the iterator at the first element that
satisfies `pred`, or `last`. -/
def find_if {α : Type} (pred : α → Bool) : List α → List α
  | [] => []
  | c :: cs => if pred c then c :: cs else find_if pred cs

/-- Library `operator<` of `basic_string_view`: lexicographic comparison of the code
units, a proper prefix being smaller. -/
def string_view_lt : List Nat → List Nat → Bool
  | [], [] => false
  | [], _ :: _ => true
  | _ :: _, [] => false
  | x :: xs, y :: ys => if x < y then true else if y < x then false else string_view_lt xs ys

/-- Library `std::sort(first, last)` on a vector of string views, ordered by `operator<`. -/
def sort_words (words : List (List Nat)) : List (List Nat) :=
  words.insertionSort (fun a b => string_view_lt b a = false)

namespace common

/-- The `for` loop of `common::sorted_split`.  `first` and `second` are the
pointers (as the code units from the pointer up to `last`); `second + 1` past
`last` is never dereferenced, the loop test on `second` stops first. -/
def sorted_split_loop (pred : Nat → Bool) :
    Nat → List Nat → List Nat → List (List Nat) → List (List Nat)
  | 0, _, _, splitted => splitted
  | fuel + 1, first, second, splitted =>
    if second ≠ [] ∧ first ≠ [] then
      let second1 := find_if pred first
      let splitted1 :=
        if first.length ≠ second1.length then
          splitted ++ [first.take (first.length - second1.length)]
        else splitted
      sorted_split_loop pred fuel (second1.drop 1) second1 splitted1
    else splitted

/-- Source `common::sorted_split`: split at whitespace, keep the non-empty words, sort. -/
def sorted_split (sizeof_CharT : Nat) (sentence : List Nat) : List (List Nat) :=
  sort_words (sorted_split_loop (is_space sizeof_CharT) (sentence.length + 1) sentence sentence [])

end common

/-- The element loop of `string_view_eq`. -/
def string_view_eq_loop : List Nat → List Nat → Bool
  | x :: xs, y :: ys => if x ≠ y then false else string_view_eq_loop xs ys
  | _, _ => true

/-- Source `string_view_eq`: equal sizes and equal code units at every index. -/
def string_view_eq (x y : List Nat) : Bool :=
  if x.length ≠ y.length then false else string_view_eq_loop x y

/-- Record `DecomposedSet`: the three word lists `set_decomposition` returns. -/
structure DecomposedSet where
  difference_ab : List (List Nat)
  difference_ba : List (List Nat)
  intersection : List (List Nat)
  deriving DecidableEq, Repr

namespace common

/-- Library `vector::erase(it)`: drop the element the iterator points at. -/
def erase_at {α : Type} (v it : List α) : List α :=
  v.take (v.length - it.length) ++ it.drop 1

/-- The range-`for` over `a.words()` in `common::set_decomposition`. -/
def set_decomposition_loop :
    List (List Nat) → List (List Nat) → List (List Nat) → List (List Nat) → DecomposedSet
  | [], intersection, difference_ab, difference_ba =>
    ⟨difference_ab, difference_ba, intersection⟩
  | current_a :: rest, intersection, difference_ab, difference_ba =>
    let element_b := find_if (fun current_b => string_view_eq current_a current_b) difference_ba
    if element_b ≠ [] then
      set_decomposition_loop rest (intersection ++ [current_a]) difference_ab
        (erase_at difference_ba element_b)
    else
      set_decomposition_loop rest intersection (difference_ab ++ [current_a]) difference_ba

/-- Source `common::set_decomposition`.  `SplittedSentenceView::dedupe` is declared
outside these sources and is a parameter here. -/
def set_decomposition (dedupe : List (List Nat) → List (List Nat))
    (a b : List (List Nat)) : DecomposedSet :=
  set_decomposition_loop (dedupe a) [] [] (dedupe b)

end common

/-- Specification side of `sorted_split`: the maximal runs of code units between
separators (`List.splitOnP`), without the empty ones, in order of occurrence. -/
def nonspace_runs (pred : Nat → Bool) (s : List Nat) : List (List Nat) :=
  (s.splitOnP pred).filter (fun w => !w.isEmpty)

/-- The order `std::sort` leaves the words in: a later word is never
lexicographically smaller than an earlier one. -/
def lex_le (a b : List Nat) : Prop := ¬ List.Lex (· < ·) b a

/-- The test sentence `s4 = "new york mets vs atlanta braves"` as code units. -/
def sentence_s4 : List Nat :=
  [110, 101, 119, 32, 121, 111, 114, 107, 32, 109, 101, 116, 115, 32, 118, 115,
    32, 97, 116, 108, 97, 110, 116, 97, 32, 98, 114, 97, 118, 101, 115]

/-- The test sentence `s5 = "atlanta braves vs new york mets"` as code units. -/
def sentence_s5 : List Nat :=
  [97, 116, 108, 97, 110, 116, 97, 32, 98, 114, 97, 118, 101, 115, 32, 118,
    115, 32, 110, 101, 119, 32, 121, 111, 114, 107, 32, 109, 101, 116, 115]

/-! ### The fuzz driver -/

/-- The library entry points the fuzz driver calls; they live outside these
sources, so the driver is modelled over arbitrary implementations. -/
structure FuzzEnv (Ops : Type) where
  extract_strings : List Nat → Option (List Nat × List Nat)
  levenshtein_distance : List Nat → List Nat → Int
  levenshtein_editops : List Nat → List Nat → Ops
  size : Ops → Nat
  editops_apply : Ops → List Nat → List Nat → List Nat
  str_multiply : List Nat → Nat → List Nat

/-- The `if` of the driver loop body: `true` when `logic_error` is thrown. -/
def fuzz_iteration_throws {Ops : Type} (env : FuzzEnv Ops) (s1 s2 : List Nat) : Bool :=
  let score := env.levenshtein_distance s1 s2
  let ops := env.levenshtein_editops s1 s2
  ((env.size ops : Int) == score) && (s2 != env.editops_apply ops s1 s2)

/-- The `for (int i = 0; i < 10; i++)` loop of the driver, `n` iterations left. -/
def fuzz_loop {Ops : Type} (env : FuzzEnv Ops) : Nat → List Nat → List Nat → Except String Int
  | 0, _, _ => Except.ok 0
  | n + 1, s1, s2 =>
    if fuzz_iteration_throws env s1 s2 then
      Except.error "levenshtein_editops failed"
    else
      fuzz_loop env n (env.str_multiply s1 2) (env.str_multiply s2 2)

/-- Source `LLVMFuzzerTestOneInput`: `Except.error` is the thrown `std::logic_error`. -/
def LLVMFuzzerTestOneInput {Ops : Type} (env : FuzzEnv Ops) (data : List Nat) :
    Except String Int :=
  match env.extract_strings data with
  | none => Except.ok 0
  | some (s1, s2) => fuzz_loop env 10 s1 s2

/-- A library outcome with both defects at once, on `s1 = "a"`, `s2 = "b"` and all
their doublings: the distance is reported as `|s2|` (the true value for these
strings), the edit script is empty, and applying it gives back `s1`. -/
def faulty_env : FuzzEnv (List EditOp) where
  extract_strings := fun _ => some ([97], [98])
  levenshtein_distance := fun _ s2 => (s2.length : Int)
  levenshtein_editops := fun _ _ => []
  size := List.length
  editops_apply := fun _ s1 _ => s1
  str_multiply := fun s n => (List.replicate n s).flatten

/-! ### Proof vocabulary for the walk of `editops_apply` -/

/-- Proof vocabulary: the next operation, if any, lies at or after `(i, j)`. -/
def head_ok (rest : List EditOp) (i j : Nat) : Prop :=
  ∀ op ∈ rest.head?, i ≤ op.source_index ∧ j ≤ op.dest_index

/-- Proof vocabulary: within `s1`, `s2`, the operations `ops` turn the `m` source
elements from `i0` into the `n` target elements from `j0`, whatever follows. -/
def Realizes {α : Type} (s1 s2 : List α) (ops : List EditOp) (i0 j0 m n : Nat) : Prop :=
  (∀ op ∈ ops, i0 ≤ op.source_index ∧ j0 ≤ op.dest_index) ∧
  ∀ (rest : List EditOp) (sp dp : Nat) (out : List α),
    sp ≤ i0 → dp ≤ j0 → head_ok rest (i0 + m) (j0 + n) →
    editops_apply_walk s1 s2 (ops ++ rest) sp dp out =
      editops_apply_walk s1 s2 rest (i0 + m) (j0 + n)
        (out ++ (s1.drop sp).take (i0 - sp) ++ (s2.drop j0).take n)

/-! ### Proof vocabulary for the bit-parallel kernel -/

/-- Proof vocabulary: the carry into bit `k` of the sum of two bit sequences with
carry-in `c0`. -/
def carry_seq (x y : Nat → Bool) (c0 : Bool) : Nat → Bool
  | 0 => c0
  | k + 1 => Bool.atLeastTwo (x k) (y k) (carry_seq x y c0 k)

/-- Proof vocabulary: a bit of `D0` from the bits of `PM`, `VP`, `VN` and the
carry into the position. -/
def d0_bit (pm vp vn c : Bool) : Bool :=
  xor (xor (xor ((pm || vn) && vp) vp) c) vp || (pm || vn)

/-- Proof vocabulary: `colj1` is the column of the distance matrix that follows
`colj`, over rows `0..m`; `eqs i` tells whether pattern element `i` equals the
target element of the step. -/
structure ColumnStep (m : Nat) (eqs : Nat → Bool) (colj colj1 : Nat → Nat) : Prop where
  first : colj1 0 = colj 0 + 1
  cell : ∀ i, i < m →
    colj1 (i + 1) = min (min (colj1 i + 1) (colj (i + 1) + 1)) (colj i + if eqs i then 0 else 1)
  vert : ∀ i, i < m → colj (i + 1) ≤ colj i + 1 ∧ colj i ≤ colj (i + 1) + 1
  horiz : ∀ i, i ≤ m → colj1 i ≤ colj i + 1 ∧ colj i ≤ colj1 i + 1

/-- Proof vocabulary: the words of a state, the first one starting at row `base`,
are `w`-bit words whose bits encode the vertical differences of the column `col`
over rows `0..m`. -/
def StateOK (w m : Nat) (col : Nat → Nat) : Nat → List (Nat × Nat) → Prop
  | _, [] => True
  | base, s :: rest =>
    base < m ∧ s.1 < 2 ^ w ∧ s.2 < 2 ^ w ∧
    (∀ r, r < w → base + r < m →
      s.1.testBit r = decide (col (base + r + 1) = col (base + r) + 1) ∧
      s.2.testBit r = decide (col (base + r + 1) + 1 = col (base + r))) ∧
    StateOK w m col (base + w) rest

/-- Proof vocabulary: the masks, the first one starting at row `base`, tell where
the pattern equals the target element. -/
def MaskOK (w m : Nat) (eqs : Nat → Bool) : Nat → List Nat → Prop
  | _, [] => True
  | base, PM :: rest =>
    (∀ r, r < w → base + r < m → PM.testBit r = eqs (base + r)) ∧
    MaskOK w m eqs (base + w) rest

/-- Proof vocabulary: the `HP` and `HN` registers of the words encode the
horizontal differences between the columns `colj` and `colj1`. -/
def HorizOK (w m : Nat) (colj colj1 : Nat → Nat) : Nat → List MyersWord → Prop
  | _, [] => True
  | base, x :: rest =>
    (∀ r, r < w → base + r < m →
      x.HP.testBit r = decide (colj1 (base + r + 1) = colj (base + r + 1) + 1) ∧
      x.HN.testBit r = decide (colj1 (base + r + 1) + 1 = colj (base + r + 1))) ∧
    HorizOK w m colj colj1 (base + w) rest

/-! ## Theorems -/

section Trimming

open common

variable {α : Type} [DecidableEq α]

/-! ### The reference distance -/

theorem lev_nil_left (b : List α) : levenshtein_distance [] b = b.length := rfl

theorem lev_nil_right (a : List α) : levenshtein_distance a [] = a.length := by
  cases a <;> rfl

theorem lev_cons_cons (x y : α) (a b : List α) :
    levenshtein_distance (x :: a) (y :: b) =
      min (min (1 + levenshtein_distance a (y :: b)) (1 + levenshtein_distance (x :: a) b))
        ((if x = y then 0 else 1) + levenshtein_distance a b) := rfl

theorem lev_delete_le (x : α) (a b : List α) :
    levenshtein_distance (x :: a) b ≤ 1 + levenshtein_distance a b := by
  cases b with
  | nil => simp [lev_nil_right]; omega
  | cons y b => rw [lev_cons_cons]; omega

theorem lev_insert_le (y : α) (a b : List α) :
    levenshtein_distance a (y :: b) ≤ 1 + levenshtein_distance a b := by
  cases a with
  | nil => simp [lev_nil_left]; omega
  | cons x a => rw [lev_cons_cons]; omega

theorem lev_le_delete (x : α) (a b : List α) :
    levenshtein_distance a b ≤ 1 + levenshtein_distance (x :: a) b := by
  induction b with
  | nil => simp [lev_nil_right]; omega
  | cons y b ih =>
    rw [lev_cons_cons]
    have h1 := lev_insert_le y a b
    split <;> omega

theorem lev_le_insert (y : α) (a b : List α) :
    levenshtein_distance a b ≤ 1 + levenshtein_distance a (y :: b) := by
  induction a with
  | nil => simp [lev_nil_left]; omega
  | cons x a ih =>
    rw [lev_cons_cons]
    have h1 := lev_delete_le x a b
    split <;> omega

theorem lev_cons_same (x : α) (a b : List α) :
    levenshtein_distance (x :: a) (x :: b) = levenshtein_distance a b := by
  rw [lev_cons_cons]
  have h1 := lev_le_delete x a b
  have h2 := lev_le_insert x a b
  have h3 := lev_insert_le x a b
  have h4 := lev_delete_le x a b
  simp only [if_true]
  omega

theorem lev_append_left (p a b : List α) :
    levenshtein_distance (p ++ a) (p ++ b) = levenshtein_distance a b := by
  induction p with
  | nil => rfl
  | cons x p ih => simpa [lev_cons_same] using ih

theorem lev_snoc_snoc (x y : α) (a b : List α) :
    levenshtein_distance (a ++ [x]) (b ++ [y]) =
      min (min (1 + levenshtein_distance a (b ++ [y])) (1 + levenshtein_distance (a ++ [x]) b))
        ((if x = y then 0 else 1) + levenshtein_distance a b) := by
  induction a generalizing b with
  | nil =>
    induction b with
    | nil =>
      simp only [List.nil_append, lev_cons_cons, lev_nil_left, lev_nil_right, List.length_cons,
        List.length_nil]
    | cons y' b' ih =>
      simp only [List.nil_append, List.cons_append, lev_nil_left, List.length_cons,
        List.length_append, List.length_nil] at ih ⊢
      rw [lev_cons_cons, lev_cons_cons, ih]
      simp only [lev_nil_left, List.length_append, List.length_cons, List.length_nil]
      omega
  | cons x' a' iha =>
    induction b with
    | nil =>
      have h := iha []
      simp only [List.nil_append, List.cons_append, lev_nil_right, List.length_cons,
        List.length_append, List.length_nil] at h ⊢
      rw [lev_cons_cons, lev_cons_cons, h]
      simp only [lev_nil_right, List.length_append, List.length_cons, List.length_nil]
      omega
    | cons y' b' ihb =>
      have e1 := iha (y' :: b')
      have e2 := ihb
      have e3 := iha b'
      simp only [List.cons_append] at e1 e2 e3 ⊢
      rw [lev_cons_cons x' y' (a' ++ [x]) (b' ++ [y]), e1, e2, e3,
        lev_cons_cons x' y' a' (b' ++ [y]), lev_cons_cons x' y' (a' ++ [x]) b',
        lev_cons_cons x' y' a' b']
      generalize (if x = y then 0 else 1) = c
      generalize (if x' = y' then 0 else 1) = c'
      generalize levenshtein_distance a' (y' :: (b' ++ [y])) = A1
      generalize levenshtein_distance (a' ++ [x]) (y' :: b') = A2
      generalize levenshtein_distance a' (y' :: b') = A3
      generalize levenshtein_distance (x' :: a') (b' ++ [y]) = A4
      generalize levenshtein_distance (x' :: (a' ++ [x])) b' = A5
      generalize levenshtein_distance (x' :: a') b' = A6
      generalize levenshtein_distance a' (b' ++ [y]) = A7
      generalize levenshtein_distance (a' ++ [x]) b' = A8
      generalize levenshtein_distance a' b' = A9
      apply le_antisymm
      · simp only [le_min_iff, min_le_iff]; omega
      · simp only [le_min_iff, min_le_iff]; omega

theorem lev_reverse (a b : List α) :
    levenshtein_distance a.reverse b.reverse = levenshtein_distance a b := by
  induction a generalizing b with
  | nil => simp [lev_nil_left]
  | cons x a iha =>
    induction b with
    | nil => simp [lev_nil_right]
    | cons y b ihb =>
      have e1 := iha (y :: b)
      have e3 := iha b
      simp only [List.reverse_cons] at e1 ihb e3 ⊢
      rw [lev_snoc_snoc, e1, ihb, e3, lev_cons_cons]

theorem lev_append_right (s a b : List α) :
    levenshtein_distance (a ++ s) (b ++ s) = levenshtein_distance a b := by
  rw [← lev_reverse, List.reverse_append, List.reverse_append, lev_append_left, lev_reverse]

/-- The reference distance agrees with the edit distance of the mathematical
library for unit costs. -/
theorem levenshtein_distance_eq_levenshtein (a b : List α) :
    levenshtein_distance a b = levenshtein Levenshtein.defaultCost a b := by
  induction a generalizing b with
  | nil =>
    induction b with
    | nil => simp [lev_nil_left]
    | cons y b ih =>
      rw [lev_nil_left] at ih ⊢
      rw [levenshtein_nil_cons, ← ih]
      simp [Nat.add_comm]
  | cons x a iha =>
    induction b with
    | nil =>
      have h := iha []
      rw [lev_nil_right] at h ⊢
      rw [levenshtein_cons_nil, ← h]
      simp [Nat.add_comm]
    | cons y b ihb =>
      rw [lev_cons_cons, levenshtein_cons_cons, ← iha (y :: b), ← ihb, ← iha b]
      simp only [Levenshtein.defaultCost_delete, Levenshtein.defaultCost_insert,
        Levenshtein.defaultCost_substitute]
      omega

theorem lev_symm (a b : List α) : levenshtein_distance a b = levenshtein_distance b a := by
  induction a generalizing b with
  | nil => simp [lev_nil_left, lev_nil_right]
  | cons x a iha =>
    induction b with
    | nil => simp [lev_nil_left, lev_nil_right]
    | cons y b ihb =>
      rw [lev_cons_cons, lev_cons_cons, iha (y :: b), ihb, iha b]
      have hc : (if x = y then 0 else 1) = (if y = x then 0 else 1) := by
        by_cases h : x = y
        · subst h; rfl
        · have h' : ¬ y = x := fun e => h e.symm
          simp [h, h']
      rw [hc]
      omega

theorem lev_single_source (x : α) (b : List α) (hb : b ≠ []) :
    levenshtein_distance [x] b = b.length - (if x ∈ b then 1 else 0) := by
  induction b with
  | nil => exact absurd rfl hb
  | cons y ys ih =>
    rw [lev_cons_cons, lev_nil_left, lev_nil_left]
    cases ys with
    | nil =>
      rw [lev_nil_right]
      by_cases h : x = y
      · subst h; simp
      · simp [h]
    | cons z zs =>
      rw [ih (List.cons_ne_nil _ _)]
      by_cases h : x = y
      · subst h
        simp only [List.mem_cons, true_or, if_true, List.length_cons]
        split <;> omega
      · by_cases h2 : x ∈ z :: zs
        · have h3 : x ∈ y :: z :: zs := List.mem_cons_of_mem _ h2
          simp only [h, h2, h3, if_true, if_false, List.length_cons]
          omega
        · have h3 : ¬ x ∈ y :: z :: zs := by
            intro hm
            rcases List.mem_cons.mp hm with e | e
            · exact h e
            · exact h2 e
          simp only [h, h2, h3, if_false, List.length_cons]
          omega

theorem lev_single_dest (a : List α) (y : α) (ha : a ≠ []) :
    levenshtein_distance a [y] = a.length - (if y ∈ a then 1 else 0) := by
  rw [lev_symm, lev_single_source y a ha]

theorem scan_single_source_length (x : α) (b : List α) (hb : b ≠ []) :
    (scan_single_source x b).length = levenshtein_distance [x] b := by
  rw [lev_single_source x b hb]
  have hpos : 0 < b.length := List.length_pos.mpr hb
  unfold scan_single_source
  by_cases h : x ∈ b
  · have hp : b.indexOf x < b.length := List.indexOf_lt_length.mpr h
    simp only [h, if_true, List.length_append, List.length_map, List.length_range,
      List.length_range', List.length_nil]
    omega
  · simp only [h, if_false, List.length_append, List.length_map, List.length_range,
      List.length_range', List.length_cons, List.length_nil]
    omega

theorem scan_single_dest_length (a : List α) (y : α) (ha : a ≠ []) :
    (scan_single_dest a y).length = levenshtein_distance a [y] := by
  rw [lev_single_dest a y ha]
  have hpos : 0 < a.length := List.length_pos.mpr ha
  unfold scan_single_dest
  by_cases h : y ∈ a
  · have hp : a.indexOf y < a.length := List.indexOf_lt_length.mpr h
    simp only [h, if_true, List.length_append, List.length_map, List.length_range,
      List.length_range', List.length_nil]
    omega
  · simp only [h, if_false, List.length_append, List.length_map, List.length_range,
      List.length_range', List.length_cons, List.length_nil]
    omega

theorem lev_append_le (a1 a2 b1 b2 : List α) :
    levenshtein_distance (a1 ++ a2) (b1 ++ b2) ≤
      levenshtein_distance a1 b1 + levenshtein_distance a2 b2 := by
  induction a1 generalizing b1 with
  | nil =>
    induction b1 with
    | nil => simp [lev_nil_left]
    | cons y b1 ih =>
      have h := lev_insert_le y a2 (b1 ++ b2)
      simp only [List.nil_append, List.cons_append, lev_nil_left, List.length_cons] at ih ⊢
      omega
  | cons x a1 iha =>
    induction b1 with
    | nil =>
      have h := lev_delete_le x (a1 ++ a2) b2
      have h2 := iha []
      simp only [List.nil_append, List.cons_append, lev_nil_right, List.length_cons] at h2 ⊢
      omega
    | cons y b1 ihb =>
      have e1 := iha (y :: b1)
      have e3 := iha b1
      simp only [List.cons_append] at e1 ihb e3 ⊢
      rw [lev_cons_cons x y (a1 ++ a2) (b1 ++ b2), lev_cons_cons x y a1 b1]
      omega

theorem lev_split_exists (a1 a2 b : List α) :
    ∃ c, c ≤ b.length ∧
      levenshtein_distance a1 (b.take c) + levenshtein_distance a2 (b.drop c) =
        levenshtein_distance (a1 ++ a2) b := by
  induction a1 generalizing b with
  | nil => exact ⟨0, Nat.zero_le _, by simp [lev_nil_left]⟩
  | cons x a1 iha =>
    induction b with
    | nil => exact ⟨0, Nat.le_refl _, by simp [lev_nil_right]; omega⟩
    | cons y b ihb =>
      have hcc := lev_cons_cons x y (a1 ++ a2) b
      -- the three ways the optimum for the whole problem can arise
      have hmin : levenshtein_distance (x :: (a1 ++ a2)) (y :: b) =
            1 + levenshtein_distance (a1 ++ a2) (y :: b) ∨
          levenshtein_distance (x :: (a1 ++ a2)) (y :: b) =
            1 + levenshtein_distance (x :: (a1 ++ a2)) b ∨
          levenshtein_distance (x :: (a1 ++ a2)) (y :: b) =
            (if x = y then 0 else 1) + levenshtein_distance (a1 ++ a2) b := by
        rw [hcc]; omega
      rcases hmin with h | h | h
      · obtain ⟨c, hc, e⟩ := iha (y :: b)
        refine ⟨c, hc, ?_⟩
        have up := lev_delete_le x a1 ((y :: b).take c)
        have low := lev_append_le (x :: a1) a2 ((y :: b).take c) ((y :: b).drop c)
        rw [List.take_append_drop] at low
        simp only [List.cons_append] at low h ⊢
        omega
      · obtain ⟨c, hc, e⟩ := ihb
        refine ⟨c + 1, by simp only [List.length_cons]; omega, ?_⟩
        have up := lev_insert_le y (x :: a1) (b.take c)
        have low := lev_append_le (x :: a1) a2 ((y :: b).take (c + 1)) ((y :: b).drop (c + 1))
        rw [List.take_append_drop] at low
        simp only [List.cons_append, List.take_succ_cons, List.drop_succ_cons] at low h e ⊢
        omega
      · obtain ⟨c, hc, e⟩ := iha b
        refine ⟨c + 1, by simp only [List.length_cons]; omega, ?_⟩
        have up : levenshtein_distance (x :: a1) (y :: b.take c) ≤
            (if x = y then 0 else 1) + levenshtein_distance a1 (b.take c) := by
          rw [lev_cons_cons]; omega
        have low := lev_append_le (x :: a1) a2 ((y :: b).take (c + 1)) ((y :: b).drop (c + 1))
        rw [List.take_append_drop] at low
        simp only [List.cons_append, List.take_succ_cons, List.drop_succ_cons] at low h e ⊢
        omega

/-! ### The bit-parallel kernel computes the distances -/

theorem carry_seq_div (x y : Nat) (c0 : Bool) (k : Nat) :
    (x % 2 ^ k + y % 2 ^ k + c0.toNat) / 2 ^ k =
      (carry_seq x.testBit y.testBit c0 k).toNat := by
  induction k with
  | zero => simp [carry_seq, Nat.mod_one]
  | succ k ih =>
    have hx : x % 2 ^ (k + 1) = 2 ^ k * (x.testBit k).toNat + x % 2 ^ k := by
      rw [Nat.mod_pow_succ, Nat.add_comm, Nat.toNat_testBit]
    have hy : y % 2 ^ (k + 1) = 2 ^ k * (y.testBit k).toNat + y % 2 ^ k := by
      rw [Nat.mod_pow_succ, Nat.add_comm, Nat.toNat_testBit]
    have hp : 2 ^ (k + 1) = 2 ^ k * 2 := Nat.pow_succ 2 k
    have hpos : 0 < 2 ^ k := Nat.two_pow_pos k
    have hxm : x % 2 ^ k < 2 ^ k := Nat.mod_lt _ hpos
    have hym : y % 2 ^ k < 2 ^ k := Nat.mod_lt _ hpos
    have hdm := Nat.div_add_mod (x % 2 ^ k + y % 2 ^ k + c0.toNat) (2 ^ k)
    have hr : (x % 2 ^ k + y % 2 ^ k + c0.toNat) % 2 ^ k < 2 ^ k := Nat.mod_lt _ hpos
    rw [ih] at hdm
    simp only [carry_seq]
    rw [hx, hy, hp]
    generalize (x % 2 ^ k + y % 2 ^ k + c0.toNat) % 2 ^ k = r at *
    generalize carry_seq x.testBit y.testBit c0 k = ck at *
    generalize x % 2 ^ k = xm at *
    generalize y % 2 ^ k = ym at *
    generalize 2 ^ k = P at *
    apply Nat.div_eq_of_lt_le
    · cases x.testBit k <;> cases y.testBit k <;> cases ck <;> cases c0 <;>
        simp only [Bool.atLeastTwo, Bool.toNat_true, Bool.toNat_false, Bool.and_true,
          Bool.and_false, Bool.or_true, Bool.or_false, Bool.and_self, Bool.or_self,
          Nat.mul_zero, Nat.mul_one, Nat.zero_mul, Nat.one_mul, Nat.add_zero, Nat.zero_add]
          at * <;> omega
    · cases x.testBit k <;> cases y.testBit k <;> cases ck <;> cases c0 <;>
        simp only [Bool.atLeastTwo, Bool.toNat_true, Bool.toNat_false, Bool.and_true,
          Bool.and_false, Bool.or_true, Bool.or_false, Bool.and_self, Bool.or_self,
          Nat.mul_zero, Nat.mul_one, Nat.zero_mul, Nat.one_mul, Nat.add_zero, Nat.zero_add,
          Nat.succ_eq_add_one]
          at * <;> omega

theorem testBit_add_carry (x y : Nat) (c0 : Bool) (k : Nat) :
    (x + y + c0.toNat).testBit k =
      xor (xor (x.testBit k) (y.testBit k)) (carry_seq x.testBit y.testBit c0 k) := by
  have hpos : 0 < 2 ^ k := Nat.two_pow_pos k
  have hx := Nat.div_add_mod x (2 ^ k)
  have hy := Nat.div_add_mod y (2 ^ k)
  have hc := carry_seq_div x y c0 k
  have e : (x + y + c0.toNat) / 2 ^ k =
      x / 2 ^ k + y / 2 ^ k + (carry_seq x.testBit y.testBit c0 k).toNat := by
    rw [← hc]
    have : x + y + c0.toNat =
        (x % 2 ^ k + y % 2 ^ k + c0.toNat) + 2 ^ k * (x / 2 ^ k + y / 2 ^ k) := by
      rw [Nat.mul_add]; omega
    rw [this, Nat.add_mul_div_left _ _ hpos]
    omega
  rw [Nat.testBit_to_div_mod, Nat.testBit_to_div_mod, Nat.testBit_to_div_mod, e]
  generalize x / 2 ^ k = qx
  generalize y / 2 ^ k = qy
  cases carry_seq x.testBit y.testBit c0 k <;>
    by_cases h1 : qx % 2 = 1 <;> by_cases h2 : qy % 2 = 1 <;>
    simp [h1, h2] <;> omega

theorem add_carry_out (w x y : Nat) (c0 : Bool) (hx : x < 2 ^ w) (hy : y < 2 ^ w) :
    (x + y + c0.toNat) / 2 ^ w = (carry_seq x.testBit y.testBit c0 w).toNat := by
  rw [← carry_seq_div, Nat.mod_eq_of_lt hx, Nat.mod_eq_of_lt hy]

theorem testBit_word_not (w x r : Nat) (h : r < w) :
    (word_not w x).testBit r = !x.testBit r := by
  unfold word_not
  have hlt : x % 2 ^ w < 2 ^ w := Nat.mod_lt _ (Nat.two_pow_pos w)
  have e : 2 ^ w - 1 - x % 2 ^ w = 2 ^ w - (x % 2 ^ w + 1) := by omega
  rw [e, Nat.testBit_two_pow_sub_succ hlt]
  simp [h, Nat.testBit_mod_two_pow]

theorem word_not_lt (w x : Nat) : word_not w x < 2 ^ w := by
  unfold word_not
  have := Nat.two_pow_pos w
  omega

theorem testBit_shift_in (w x r : Nat) (c : Bool) (h : r < w) :
    (((x <<< 1) ||| c.toNat) % 2 ^ w).testBit r =
      if r = 0 then c else x.testBit (r - 1) := by
  rw [Nat.testBit_mod_two_pow, Nat.testBit_or, Nat.testBit_shiftLeft, Nat.testBit_bool_to_nat]
  by_cases h0 : r = 0
  · subst h0; simp [h]
  · have : 1 ≤ r := by omega
    simp [h, h0, this]

theorem shiftRight_top (w x : Nat) (hw : 0 < w) (hx : x < 2 ^ w) :
    x >>> (w - 1) = (x.testBit (w - 1)).toNat := by
  rw [Nat.shiftRight_eq_div_pow, Nat.testBit_to_div_mod]
  have hp : 2 ^ w = 2 ^ (w - 1) * 2 := by
    rw [← Nat.pow_succ]; congr 1; omega
  have hlt : x / 2 ^ (w - 1) < 2 := by
    apply Nat.div_lt_of_lt_mul; omega
  generalize x / 2 ^ (w - 1) = q at *
  interval_cases q <;> simp

theorem d0_testBit (w PM VP VN : Nat) (ac : Bool) (r : Nat) (hr : r < w) :
    (((((PM ||| VN) &&& VP) + VP + ac.toNat) % 2 ^ w ^^^ VP) ||| (PM ||| VN)).testBit r =
      d0_bit (PM.testBit r) (VP.testBit r) (VN.testBit r)
        (carry_seq ((PM ||| VN) &&& VP).testBit VP.testBit ac r) := by
  simp only [Nat.testBit_or, Nat.testBit_and, Nat.testBit_xor,
    Nat.testBit_mod_two_pow, testBit_add_carry, d0_bit, hr,
    decide_True, Bool.true_and]

theorem myers_word_step_h_bits (w PM VP VN : Nat) (ac : Bool) (hpc hnc : Nat) (r : Nat)
    (hr : r < w) :
    (myers_word_step w PM VP VN ac.toNat hpc hnc).1.HP.testBit r =
        (VN.testBit r || !(d0_bit (PM.testBit r) (VP.testBit r) (VN.testBit r)
          (carry_seq ((PM ||| VN) &&& VP).testBit VP.testBit ac r) || VP.testBit r)) ∧
    (myers_word_step w PM VP VN ac.toNat hpc hnc).1.HN.testBit r =
        (VP.testBit r && d0_bit (PM.testBit r) (VP.testBit r) (VN.testBit r)
          (carry_seq ((PM ||| VN) &&& VP).testBit VP.testBit ac r)) := by
  have e1 : (myers_word_step w PM VP VN ac.toNat hpc hnc).1.HP =
      VN ||| word_not w ((((((PM ||| VN) &&& VP) + VP + ac.toNat) % 2 ^ w ^^^ VP) |||
        (PM ||| VN)) ||| VP) := rfl
  have e2 : (myers_word_step w PM VP VN ac.toNat hpc hnc).1.HN =
      VP &&& (((((PM ||| VN) &&& VP) + VP + ac.toNat) % 2 ^ w ^^^ VP) |||
        (PM ||| VN)) := rfl
  rw [e1, e2]
  constructor
  · rw [Nat.testBit_or, testBit_word_not _ _ _ hr, Nat.testBit_or, d0_testBit _ _ _ _ _ _ hr]
  · rw [Nat.testBit_and, d0_testBit _ _ _ _ _ _ hr]

theorem myers_word_step_v_bits (w PM VP VN : Nat) (ac hpc hnc : Bool) (r : Nat)
    (hr : r < w) :
    (myers_word_step w PM VP VN ac.toNat hpc.toNat hnc.toNat).1.VP.testBit r =
        ((if r = 0 then hnc
            else (myers_word_step w PM VP VN ac.toNat hpc.toNat hnc.toNat).1.HN.testBit (r - 1)) ||
          !(d0_bit (PM.testBit r) (VP.testBit r) (VN.testBit r)
              (carry_seq ((PM ||| VN) &&& VP).testBit VP.testBit ac r) ||
            (if r = 0 then hpc
              else (myers_word_step w PM VP VN ac.toNat hpc.toNat hnc.toNat).1.HP.testBit (r - 1)))) ∧
    (myers_word_step w PM VP VN ac.toNat hpc.toNat hnc.toNat).1.VN.testBit r =
        (d0_bit (PM.testBit r) (VP.testBit r) (VN.testBit r)
              (carry_seq ((PM ||| VN) &&& VP).testBit VP.testBit ac r) &&
            (if r = 0 then hpc
              else (myers_word_step w PM VP VN ac.toNat hpc.toNat hnc.toNat).1.HP.testBit (r - 1))) := by
  have e1 : (myers_word_step w PM VP VN ac.toNat hpc.toNat hnc.toNat).1.VP =
      ((((myers_word_step w PM VP VN ac.toNat hpc.toNat hnc.toNat).1.HN <<< 1) |||
          hnc.toNat) % 2 ^ w) |||
        word_not w ((((((PM ||| VN) &&& VP) + VP + ac.toNat) % 2 ^ w ^^^ VP) |||
          (PM ||| VN)) |||
          ((((myers_word_step w PM VP VN ac.toNat hpc.toNat hnc.toNat).1.HP <<< 1) |||
            hpc.toNat) % 2 ^ w)) := rfl
  have e2 : (myers_word_step w PM VP VN ac.toNat hpc.toNat hnc.toNat).1.VN =
      (((((PM ||| VN) &&& VP) + VP + ac.toNat) % 2 ^ w ^^^ VP) ||| (PM ||| VN)) &&&
          ((((myers_word_step w PM VP VN ac.toNat hpc.toNat hnc.toNat).1.HP <<< 1) |||
            hpc.toNat) % 2 ^ w) := rfl
  constructor
  · rw [e1, Nat.testBit_or, testBit_word_not _ _ _ hr, Nat.testBit_or,
      d0_testBit _ _ _ _ _ _ hr, testBit_shift_in _ _ _ _ hr, testBit_shift_in _ _ _ _ hr]
  · rw [e2, Nat.testBit_and, d0_testBit _ _ _ _ _ _ hr, testBit_shift_in _ _ _ _ hr]

theorem myers_word_step_carry_bit (w PM VP VN : Nat) (ac : Bool) (hpc hnc : Nat) (r : Nat)
    (hr : r < w) :
    carry_seq ((PM ||| VN) &&& VP).testBit VP.testBit ac (r + 1) =
      (myers_word_step w PM VP VN ac.toNat hpc hnc).1.HN.testBit r := by
  rw [(myers_word_step_h_bits w PM VP VN ac hpc hnc r hr).2]
  simp only [carry_seq, Nat.testBit_and, Nat.testBit_or, d0_bit, Bool.atLeastTwo]
  cases PM.testBit r <;> cases VP.testBit r <;> cases VN.testBit r <;>
    cases carry_seq ((PM ||| VN) &&& VP).testBit VP.testBit ac r <;> rfl

theorem myers_word_step_bounds (w PM VP VN ac hpc hnc : Nat) (hVP : VP < 2 ^ w)
    (hVN : VN < 2 ^ w) :
    (myers_word_step w PM VP VN ac hpc hnc).1.VP < 2 ^ w ∧
    (myers_word_step w PM VP VN ac hpc hnc).1.VN < 2 ^ w ∧
    (myers_word_step w PM VP VN ac hpc hnc).1.HP < 2 ^ w ∧
    (myers_word_step w PM VP VN ac hpc hnc).1.HN < 2 ^ w := by
  have hpos := Nat.two_pow_pos w
  simp only [myers_word_step]
  refine ⟨Nat.or_lt_two_pow (Nat.mod_lt _ hpos) (word_not_lt _ _), ?_,
    Nat.or_lt_two_pow hVN (word_not_lt _ _), ?_⟩
  · exact lt_of_le_of_lt Nat.and_le_right (Nat.mod_lt _ hpos)
  · exact lt_of_le_of_lt Nat.and_le_left hVP

theorem myers_word_step_carries (w PM VP VN : Nat) (ac : Bool) (hpc hnc : Nat) (hw : 0 < w)
    (hVP : VP < 2 ^ w) (hVN : VN < 2 ^ w) :
    (myers_word_step w PM VP VN ac.toNat hpc hnc).2.1 =
      ((myers_word_step w PM VP VN ac.toNat hpc hnc).1.HN.testBit (w - 1)).toNat ∧
    (myers_word_step w PM VP VN ac.toNat hpc hnc).2.2.1 =
      ((myers_word_step w PM VP VN ac.toNat hpc hnc).1.HP.testBit (w - 1)).toNat ∧
    (myers_word_step w PM VP VN ac.toNat hpc hnc).2.2.2 =
      ((myers_word_step w PM VP VN ac.toNat hpc hnc).1.HN.testBit (w - 1)).toNat := by
  obtain ⟨_, _, hHP, hHN⟩ := myers_word_step_bounds w PM VP VN ac.toNat hpc hnc hVP hVN
  refine ⟨?_, shiftRight_top w _ hw hHP, shiftRight_top w _ hw hHN⟩
  rw [← myers_word_step_carry_bit w PM VP VN ac hpc hnc (w - 1) (by omega)]
  have e : w - 1 + 1 = w := by omega
  rw [e]
  exact add_carry_out w _ _ ac (lt_of_le_of_lt Nat.and_le_right hVP) hVP

theorem d0_bit_eq (pm vp vn c : Bool) : d0_bit pm vp vn c = (pm || vn || c) := by
  cases pm <;> cases vp <;> cases vn <;> cases c <;> rfl

theorem myers_cell (A0 A1 B0 B1 : Nat) (e : Bool)
    (hcell : B1 = min (min (B0 + 1) (A1 + 1)) (A0 + if e then 0 else 1))
    (hv : A1 ≤ A0 + 1 ∧ A0 ≤ A1 + 1) (hh : B0 ≤ A0 + 1 ∧ A0 ≤ B0 + 1) :
    (decide (A1 + 1 = A0) ||
        !(d0_bit e (decide (A1 = A0 + 1)) (decide (A1 + 1 = A0)) (decide (B0 + 1 = A0)) ||
          decide (A1 = A0 + 1))) = decide (B1 = A1 + 1) ∧
    (decide (A1 = A0 + 1) &&
        d0_bit e (decide (A1 = A0 + 1)) (decide (A1 + 1 = A0)) (decide (B0 + 1 = A0))) =
      decide (B1 + 1 = A1) ∧
    (decide (B0 + 1 = A0) ||
        !(d0_bit e (decide (A1 = A0 + 1)) (decide (A1 + 1 = A0)) (decide (B0 + 1 = A0)) ||
          decide (B0 = A0 + 1))) = decide (B1 = B0 + 1) ∧
    (d0_bit e (decide (A1 = A0 + 1)) (decide (A1 + 1 = A0)) (decide (B0 + 1 = A0)) &&
        decide (B0 = A0 + 1)) = decide (B1 + 1 = B0) := by
  simp only [d0_bit_eq]
  have hk : (e = true ∧ (if e then 0 else 1) = 0) ∨ (e = false ∧ (if e then 0 else 1) = 1) := by
    cases e <;> simp
  generalize (if e then 0 else 1) = k at hcell hk
  have h1 : B1 ≤ B0 + 1 ∧ B1 ≤ A1 + 1 ∧ B1 ≤ A0 + k ∧
      (B1 = B0 + 1 ∨ B1 = A1 + 1 ∨ B1 = A0 + k) := by
    rw [hcell]; simp only [Nat.min_def]; split_ifs <;> omega
  clear hcell
  refine ⟨?_, ?_, ?_, ?_⟩ <;> rw [Bool.eq_iff_iff] <;>
    simp only [Bool.or_eq_true, Bool.and_eq_true, Bool.not_eq_true',
      Bool.or_eq_false_iff, decide_eq_true_eq, decide_eq_false_iff_not] <;>
    rcases hk with ⟨he, hk⟩ | ⟨he, hk⟩ <;> subst he <;>
    (try simp only [Bool.false_eq_true, Bool.true_eq_false, or_false, or_true, false_or, true_or, true_and, false_and, and_true,
      not_true_eq_false, not_false_eq_true]) <;>
    omega

theorem myers_word_step_spec (w m base : Nat) (eqs : Nat → Bool) (colj colj1 : Nat → Nat)
    (hs : ColumnStep m eqs colj colj1) (PM VP VN : Nat) (hpc hnc : Bool)
    (hPM : ∀ r, r < w → base + r < m → PM.testBit r = eqs (base + r))
    (hVP : ∀ r, r < w → base + r < m →
      VP.testBit r = decide (colj (base + r + 1) = colj (base + r) + 1))
    (hVN : ∀ r, r < w → base + r < m →
      VN.testBit r = decide (colj (base + r + 1) + 1 = colj (base + r)))
    (hhp : hpc = decide (colj1 base = colj base + 1))
    (hhn : hnc = decide (colj1 base + 1 = colj base))
    (r : Nat) (hr : r < w) (hm : base + r < m) :
    (myers_word_step w PM VP VN hnc.toNat hpc.toNat hnc.toNat).1.HP.testBit r =
        decide (colj1 (base + r + 1) = colj (base + r + 1) + 1) ∧
    (myers_word_step w PM VP VN hnc.toNat hpc.toNat hnc.toNat).1.HN.testBit r =
        decide (colj1 (base + r + 1) + 1 = colj (base + r + 1)) ∧
    (myers_word_step w PM VP VN hnc.toNat hpc.toNat hnc.toNat).1.VP.testBit r =
        decide (colj1 (base + r + 1) = colj1 (base + r) + 1) ∧
    (myers_word_step w PM VP VN hnc.toNat hpc.toNat hnc.toNat).1.VN.testBit r =
        decide (colj1 (base + r + 1) + 1 = colj1 (base + r)) := by
  induction r with
  | zero =>
    obtain ⟨h1, h2⟩ := myers_word_step_h_bits w PM VP VN hnc hpc.toNat hnc.toNat 0 hr
    obtain ⟨h3, h4⟩ := myers_word_step_v_bits w PM VP VN hnc hpc hnc 0 hr
    rw [h1, h2, h3, h4]
    simp only [carry_seq, if_true, hPM 0 hr hm, hVP 0 hr hm, hVN 0 hr hm, hhp, hhn,
      Nat.add_zero]
    exact myers_cell _ _ _ _ _ (hs.cell base hm) (hs.vert base hm) (hs.horiz base (by omega))
  | succ r ih =>
    obtain ⟨i1, i2, _, _⟩ := ih (by omega) (by omega)
    obtain ⟨h1, h2⟩ := myers_word_step_h_bits w PM VP VN hnc hpc.toNat hnc.toNat (r + 1) hr
    obtain ⟨h3, h4⟩ := myers_word_step_v_bits w PM VP VN hnc hpc hnc (r + 1) hr
    have hc := myers_word_step_carry_bit w PM VP VN hnc hpc.toNat hnc.toNat r (by omega)
    rw [h1, h2, h3, h4, hc]
    simp only [Nat.add_one_ne_zero, if_false, Nat.add_sub_cancel, i1, i2,
      hPM (r + 1) hr hm, hVP (r + 1) hr hm, hVN (r + 1) hr hm]
    exact myers_cell _ _ _ _ _ (hs.cell (base + (r + 1)) hm) (hs.vert (base + (r + 1)) hm)
      (hs.horiz (base + (r + 1)) (by omega))

theorem myers_block_step_spec (w m : Nat) (eqs : Nat → Bool) (colj colj1 : Nat → Nat)
    (hw : 0 < w) (hs : ColumnStep m eqs colj colj1) :
    ∀ (st : List (Nat × Nat)) (PMs : List Nat) (base : Nat) (hpc hnc : Bool),
      PMs.length = st.length → StateOK w m colj base st → MaskOK w m eqs base PMs →
      (st ≠ [] → hpc = decide (colj1 base = colj base + 1) ∧
        hnc = decide (colj1 base + 1 = colj base)) →
      StateOK w m colj1 base
          ((myers_block_step w PMs st hnc.toNat hpc.toNat hnc.toNat).map
            (fun x => (x.VP, x.VN))) ∧
        HorizOK w m colj colj1 base
          (myers_block_step w PMs st hnc.toNat hpc.toNat hnc.toNat) ∧
        (myers_block_step w PMs st hnc.toNat hpc.toNat hnc.toNat).length = st.length := by
  intro st
  induction st with
  | nil =>
    intro PMs base hpc hnc _ _ _ _
    cases PMs <;> simp [myers_block_step, StateOK, HorizOK]
  | cons s rest ih =>
    intro PMs base hpc hnc hlen hst hpm hcar
    obtain ⟨VP, VN⟩ := s
    cases PMs with
    | nil => simp at hlen
    | cons PM PMs =>
      obtain ⟨hb, hVP, hVN, hbits, hrest⟩ := hst
      obtain ⟨hPM, hpmrest⟩ := hpm
      obtain ⟨hhp, hhn⟩ := hcar (by simp)
      have hspec := myers_word_step_spec w m base eqs colj colj1 hs PM VP VN hpc hnc hPM
        (fun r hr hm => (hbits r hr hm).1) (fun r hr hm => (hbits r hr hm).2) hhp hhn
      obtain ⟨c1, c2, c3⟩ := myers_word_step_carries w PM VP VN hnc hpc.toNat hnc.toNat hw hVP hVN
      obtain ⟨b1, b2, _, _⟩ := myers_word_step_bounds w PM VP VN hnc.toNat hpc.toNat hnc.toNat
        hVP hVN
      have e : myers_block_step w (PM :: PMs) ((VP, VN) :: rest) hnc.toNat hpc.toNat hnc.toNat =
          (myers_word_step w PM VP VN hnc.toNat hpc.toNat hnc.toNat).1 ::
            myers_block_step w PMs rest
              (myers_word_step w PM VP VN hnc.toNat hpc.toNat hnc.toNat).2.1
              (myers_word_step w PM VP VN hnc.toNat hpc.toNat hnc.toNat).2.2.1
              (myers_word_step w PM VP VN hnc.toNat hpc.toNat hnc.toNat).2.2.2 := rfl
      rw [e, c1, c2, c3]
      have hl : PMs.length = rest.length := by simpa using hlen
      have hnext := ih PMs (base + w)
        ((myers_word_step w PM VP VN hnc.toNat hpc.toNat hnc.toNat).1.HP.testBit (w - 1))
        ((myers_word_step w PM VP VN hnc.toNat hpc.toNat hnc.toNat).1.HN.testBit (w - 1))
        hl hrest hpmrest (by
          intro hne
          have hbw : base + w < m := by
            cases rest with
            | nil => exact absurd rfl hne
            | cons t ts => exact hrest.1
          have h := hspec (w - 1) (by omega) (by omega)
          have e1 : base + (w - 1) + 1 = base + w := by omega
          rw [e1] at h
          exact ⟨h.1, h.2.1⟩)
      obtain ⟨n1, n2, n3⟩ := hnext
      refine ⟨?_, ?_, ?_⟩
      · refine ⟨hb, b1, b2, ?_, n1⟩
        intro r hr hm
        exact ⟨(hspec r hr hm).2.2.1, (hspec r hr hm).2.2.2⟩
      · refine ⟨?_, n2⟩
        intro r hr hm
        exact ⟨(hspec r hr hm).1, (hspec r hr hm).2.1⟩
      · simp [n3]

theorem HorizOK_getD (w m : Nat) (colj colj1 : Nat → Nat) :
    ∀ (l : List MyersWord) (base q r : Nat), HorizOK w m colj colj1 base l → q < l.length →
      r < w → base + q * w + r < m →
      (l.getD q ⟨0, 0, 0, 0⟩).HP.testBit r =
          decide (colj1 (base + q * w + r + 1) = colj (base + q * w + r + 1) + 1) ∧
      (l.getD q ⟨0, 0, 0, 0⟩).HN.testBit r =
          decide (colj1 (base + q * w + r + 1) + 1 = colj (base + q * w + r + 1)) := by
  intro l
  induction l with
  | nil => intro base q r _ hq; simp at hq
  | cons x rest ih =>
    intro base q r h hq hr hm
    cases q with
    | zero =>
      simp only [Nat.zero_mul, Nat.add_zero] at hm ⊢
      exact h.1 r hr hm
    | succ q =>
      have e : base + (q + 1) * w = base + w + q * w := by rw [Nat.succ_mul]; omega
      rw [e] at hm ⊢
      exact ih (base + w) q r h.2 (by simpa using hq) hr hm

theorem lev_snoc_delete (x : α) (a b : List α) :
    levenshtein_distance (a ++ [x]) b ≤ levenshtein_distance a b + 1 ∧
      levenshtein_distance a b ≤ levenshtein_distance (a ++ [x]) b + 1 := by
  have h1 := lev_delete_le x a.reverse b.reverse
  have h2 := lev_le_delete x a.reverse b.reverse
  have e : x :: a.reverse = (a ++ [x]).reverse := by simp
  rw [e, lev_reverse, lev_reverse] at h1 h2
  omega

theorem lev_snoc_insert (y : α) (a b : List α) :
    levenshtein_distance a (b ++ [y]) ≤ levenshtein_distance a b + 1 ∧
      levenshtein_distance a b ≤ levenshtein_distance a (b ++ [y]) + 1 := by
  have h := lev_snoc_delete y b a
  rw [lev_symm (b ++ [y]) a, lev_symm b a] at h
  exact h

theorem take_succ_snoc {β : Type} (a : List β) (i : Nat) (h : i < a.length) :
    a.take (i + 1) = a.take i ++ [a.get ⟨i, h⟩] := by
  rw [List.take_succ, List.getElem?_eq_getElem h]
  rfl

theorem column_step_lev (a done : List α) (y : α) :
    ColumnStep a.length (fun i => decide (a[i]? = some y))
      (fun i => levenshtein_distance (a.take i) done)
      (fun i => levenshtein_distance (a.take i) (done ++ [y])) := by
  refine ⟨?_, ?_, ?_, ?_⟩
  · simp [lev_nil_left]
  · intro i hi
    show levenshtein_distance (a.take (i + 1)) (done ++ [y]) = _
    rw [take_succ_snoc a i hi, lev_snoc_snoc, List.getElem?_eq_getElem hi]
    simp only [List.get_eq_getElem, Option.some.injEq, decide_eq_true_eq]
    congr 1
    · congr 1 <;> omega
    · omega
  · intro i hi
    show levenshtein_distance (a.take (i + 1)) done ≤ _ ∧ _ ≤ levenshtein_distance (a.take (i + 1)) done + 1
    rw [take_succ_snoc a i hi]
    exact lev_snoc_delete _ _ _
  · intro i _
    exact lev_snoc_insert _ _ _

theorem pattern_mask_testBit (c : α) :
    ∀ (l : List α) (r : Nat), (pattern_mask c l).testBit r = decide (l[r]? = some c) := by
  intro l
  induction l with
  | nil => intro r; simp [pattern_mask]
  | cons x xs ih =>
    intro r
    cases r with
    | zero =>
      simp only [pattern_mask, Nat.testBit_zero, List.getElem?_cons_zero, Option.some.injEq]
      by_cases h : x = c <;> simp [h, Nat.add_mod]
    | succ r =>
      simp only [pattern_mask, Nat.testBit_succ, List.getElem?_cons_succ]
      rw [← ih r]
      congr 1
      by_cases h : x = c <;> simp [h]; omega

theorem word_count_lt (w m j : Nat) (hw : 0 < w) (h : j < word_count w m) : j * w < m := by
  unfold word_count at h
  have h1 : (j + 1) * w ≤ m + w - 1 := (Nat.le_div_iff_mul_le hw).1 h
  rw [Nat.succ_mul] at h1
  omega

theorem lt_word_count (w m : Nat) (hw : 0 < w) (hm : 0 < m) : (m - 1) / w < word_count w m := by
  unfold word_count
  have e : m + w - 1 = (m - 1) + w := by omega
  rw [e, Nat.add_div_right _ hw]
  omega

theorem mask_ok_range (w : Nat) (a : List α) (y : α) :
    ∀ (k s : Nat), MaskOK w a.length (fun i => decide (a[i]? = some y)) (s * w)
      ((List.range' s k).map (bitmask w a y)) := by
  intro k
  induction k with
  | zero => intro s; simp [MaskOK]
  | succ k ih =>
    intro s
    rw [List.range'_succ, List.map_cons]
    refine ⟨?_, ?_⟩
    · intro r hr _
      rw [bitmask, pattern_mask_testBit, List.getElem?_take_of_lt hr, List.getElem?_drop]
    · have := ih (s + 1)
      rw [Nat.succ_mul] at this
      exact this

theorem state_ok_initial (w : Nat) (a : List α) :
    ∀ (k s : Nat), (∀ j, j < s + k → j * w < a.length) →
      StateOK w a.length (fun i => levenshtein_distance (a.take i) []) (s * w)
        ((List.range' s k).map (fun j => (2 ^ (min w (a.length - j * w)) - 1, 0))) := by
  intro k
  induction k with
  | zero => intro s _; simp [StateOK]
  | succ k ih =>
    intro s h
    rw [List.range'_succ, List.map_cons]
    refine ⟨h s (by omega), ?_, Nat.two_pow_pos w, ?_, ?_⟩
    · have h1 : 2 ^ min w (a.length - s * w) ≤ 2 ^ w :=
        Nat.pow_le_pow_right (by omega) (Nat.min_le_left _ _)
      have := Nat.two_pow_pos (min w (a.length - s * w))
      show 2 ^ min w (a.length - s * w) - 1 < 2 ^ w
      omega
    · intro r hr hm
      simp only [lev_nil_right, List.length_take, Nat.testBit_two_pow_sub_one,
        Nat.zero_testBit]
      have e1 : min (s * w + r + 1) a.length = s * w + r + 1 := Nat.min_eq_left (by omega)
      have e2 : min (s * w + r) a.length = s * w + r := Nat.min_eq_left (by omega)
      rw [e1, e2]
      constructor
      · rw [decide_eq_decide, lt_min_iff]
        omega
      · symm
        rw [decide_eq_false_iff_not]
        omega
    · have := ih (s + 1) (fun j hj => h j (by omega))
      rw [Nat.succ_mul] at this
      exact this

theorem distance_update (x y : Nat) (hp hn : Bool) (h1 : hp = decide (x = y + 1))
    (h2 : hn = decide (x + 1 = y)) (hh : x ≤ y + 1 ∧ y ≤ x + 1) :
    (if hn then (if hp then y + 1 else y) - 1 else (if hp then y + 1 else y)) = x := by
  subst h1 h2
  simp only [decide_eq_true_eq]
  split_ifs <;> omega

theorem myers_sweep_spec (w : Nat) (hw : 0 < w) (a : List α) (ha : 0 < a.length) :
    ∀ (rest done : List α) (state : List (Nat × Nat)),
      state.length = word_count w a.length →
      StateOK w a.length (fun i => levenshtein_distance (a.take i) done) 0 state →
      myers_sweep w a rest state (levenshtein_distance a done) =
        (List.range (rest.length + 1)).map
          (fun c => levenshtein_distance a (done ++ rest.take c)) := by
  intro rest
  induction rest with
  | nil =>
    intro done state _ _
    simp [myers_sweep]
  | cons t ts ih =>
    intro done state hlen hst
    have hs := column_step_lev a done t
    have hmask : MaskOK w a.length (fun i => decide (a[i]? = some t)) 0
        ((List.range (word_count w a.length)).map (bitmask w a t)) := by
      have := mask_ok_range w a t (word_count w a.length) 0
      rw [Nat.zero_mul, ← List.range_eq_range'] at this
      exact this
    have hml : ((List.range (word_count w a.length)).map (bitmask w a t)).length =
        state.length := by
      simp [hlen]
    obtain ⟨n1, n2, n3⟩ := myers_block_step_spec w a.length _ _ _ hw hs state ((List.range (word_count w a.length)).map (bitmask w a t)) 0
      true false hml hst hmask (by
        intro _
        have h0 := hs.first
        simp only at h0
        constructor
        · symm; rw [decide_eq_true_eq]; exact h0
        · symm; rw [decide_eq_false_iff_not]; omega)
    have hq : (a.length - 1) / w < (myers_block_step w ((List.range (word_count w a.length)).map (bitmask w a t)) state 0 1 0).length := by
      have e : (myers_block_step w ((List.range (word_count w a.length)).map (bitmask w a t)) state 0 1 0).length = state.length := n3
      rw [e, hlen]
      exact lt_word_count w a.length hw ha
    have hrow : 0 + (a.length - 1) / w * w + (a.length - 1) % w = a.length - 1 := by
      rw [Nat.zero_add]; exact Nat.div_add_mod' _ _
    have hbit := HorizOK_getD w a.length _ _ _ 0 ((a.length - 1) / w) ((a.length - 1) % w)
      n2 hq (Nat.mod_lt _ hw) (by omega)
    rw [hrow] at hbit
    have em : a.length - 1 + 1 = a.length := by omega
    simp only [em, List.take_length] at hbit
    have hh := hs.horiz a.length (le_refl _)
    simp only [List.take_length] at hh
    have hd : (if ((myers_block_step w ((List.range (word_count w a.length)).map (bitmask w a t)) state 0 1 0).getD
          ((a.length - 1) / w) ⟨0, 0, 0, 0⟩).HN.testBit ((a.length - 1) % w) then
          (if ((myers_block_step w ((List.range (word_count w a.length)).map (bitmask w a t)) state 0 1 0).getD
            ((a.length - 1) / w) ⟨0, 0, 0, 0⟩).HP.testBit ((a.length - 1) % w) then
            levenshtein_distance a done + 1 else levenshtein_distance a done) - 1
        else (if ((myers_block_step w ((List.range (word_count w a.length)).map (bitmask w a t)) state 0 1 0).getD
            ((a.length - 1) / w) ⟨0, 0, 0, 0⟩).HP.testBit ((a.length - 1) % w) then
            levenshtein_distance a done + 1 else levenshtein_distance a done)) =
        levenshtein_distance a (done ++ [t]) := by
      have b1 : (myers_block_step w ((List.range (word_count w a.length)).map (bitmask w a t)) state 0 1 0) =
        (myers_block_step w ((List.range (word_count w a.length)).map (bitmask w a t)) state false.toNat true.toNat false.toNat) := rfl
      rw [b1]
      exact distance_update _ _ _ _ hbit.1 hbit.2 hh
    have hnext := ih (done ++ [t])
      ((myers_block_step w ((List.range (word_count w a.length)).map (bitmask w a t)) state 0 1 0).map (fun x => (x.VP, x.VN)))
      (by rw [List.length_map]; exact n3.trans hlen) n1
    have e1 : myers_sweep w a (t :: ts) state (levenshtein_distance a done) =
        levenshtein_distance a done ::
          myers_sweep w a ts
            ((myers_block_step w ((List.range (word_count w a.length)).map (bitmask w a t)) state 0 1 0).map (fun x => (x.VP, x.VN)))
            (if ((myers_block_step w ((List.range (word_count w a.length)).map (bitmask w a t)) state 0 1 0).getD
                ((a.length - 1) / w) ⟨0, 0, 0, 0⟩).HN.testBit ((a.length - 1) % w) then
                (if ((myers_block_step w ((List.range (word_count w a.length)).map (bitmask w a t)) state 0 1 0).getD
                  ((a.length - 1) / w) ⟨0, 0, 0, 0⟩).HP.testBit ((a.length - 1) % w) then
                  levenshtein_distance a done + 1 else levenshtein_distance a done) - 1
              else (if ((myers_block_step w ((List.range (word_count w a.length)).map (bitmask w a t)) state 0 1 0).getD
                  ((a.length - 1) / w) ⟨0, 0, 0, 0⟩).HP.testBit ((a.length - 1) % w) then
                  levenshtein_distance a done + 1 else levenshtein_distance a done)) := rfl
    rw [e1, hd, hnext, List.length_cons, List.range_succ_eq_map (ts.length + 1), List.map_cons,
      List.map_map]
    congr 1
    · simp
    · apply List.map_congr_left
      intro c _
      simp

theorem myers_sweep_single_word (w : Nat) (a : List α) (ha : 0 < a.length)
    (hle : a.length ≤ w) :
    ∀ (ts : List α) (VP VN d : Nat),
      myers_sweep w a ts [(VP, VN)] d = myers_sweep_word w a ts VP VN d := by
  have hwc : word_count w a.length = 1 := by
    unfold word_count
    apply Nat.div_eq_of_lt_le <;> omega
  have hq : (a.length - 1) / w = 0 := Nat.div_eq_of_lt (by omega)
  have ht : (a.length - 1) % w = a.length - 1 := Nat.mod_eq_of_lt (by omega)
  have hr1 : List.range 1 = [0] := rfl
  intro ts
  induction ts with
  | nil => intro VP VN d; rfl
  | cons t ts ih =>
    intro VP VN d
    simp only [myers_sweep, myers_sweep_word, hwc, hq, ht, hr1, List.map_cons,
      List.map_nil, myers_block_step, List.getD_cons_zero, ih]

theorem myers_initial_state_single (w m : Nat) (hm : 0 < m) (hle : m ≤ w) :
    myers_initial_state w m = [(2 ^ m - 1, 0)] := by
  have hwc : word_count w m = 1 := by
    unfold word_count
    apply Nat.div_eq_of_lt_le <;> omega
  have e : min w (m - 0 * w) = m := by
    rw [Nat.zero_mul, Nat.sub_zero]; exact Nat.min_eq_right hle
  have hr1 : List.range 1 = [0] := rfl
  simp only [myers_initial_state, hwc, hr1, List.map_cons, List.map_nil, e]

theorem myers_score_vector_getD (w : Nat) (hw : 0 < w) (a b : List α) (c : Nat)
    (hc : c ≤ b.length) :
    (myers_score_vector w a b).getD c 0 = levenshtein_distance a (b.take c) := by
  have hmulti : 0 < a.length →
      (myers_sweep w a b (myers_initial_state w a.length) a.length).getD c 0 =
        levenshtein_distance a (b.take c) := by
    intro ha
    have hst : StateOK w a.length (fun i => levenshtein_distance (a.take i) []) 0
        (myers_initial_state w a.length) := by
      have := state_ok_initial w a (word_count w a.length) 0
        (fun j hj => word_count_lt w a.length j hw (by omega))
      rw [Nat.zero_mul, ← List.range_eq_range'] at this
      exact this
    have h := myers_sweep_spec w hw a ha b [] (myers_initial_state w a.length)
      (by simp [myers_initial_state]) hst
    rw [lev_nil_right] at h
    rw [h, List.getD_eq_getElem?_getD, List.getElem?_map, List.getElem?_range (by omega)]
    rfl
  unfold myers_score_vector
  by_cases ha : a.length = 0
  · rw [if_pos ha]
    have : a = [] := List.length_eq_zero.1 ha
    subst this
    rw [lev_nil_left, List.getD_eq_getElem?_getD, List.getElem?_range (by omega)]
    simp [hc]
  · rw [if_neg ha]
    by_cases hle : a.length ≤ w
    · rw [if_pos hle, ← myers_sweep_single_word w a (by omega) hle,
        ← myers_initial_state_single w a.length (by omega) hle]
      exact hmulti (by omega)
    · rw [if_neg hle]
      exact hmulti (by omega)

theorem score_vector_getD (a b : List α) (c : Nat) (hc : c ≤ b.length) :
    (score_vector a b).getD c 0 = levenshtein_distance a (b.take c) :=
  myers_score_vector_getD word_bits (by decide) a b c hc

/-! ### The divide step and the number of operations -/

theorem leftmost_argmin_le (f : Nat → Nat) (n : Nat) : leftmost_argmin f n ≤ n := by
  induction n with
  | zero => simp [leftmost_argmin]
  | succ n ih =>
    simp only [leftmost_argmin]
    split <;> omega

theorem leftmost_argmin_min (f : Nat → Nat) (n : Nat) :
    ∀ c, c ≤ n → f (leftmost_argmin f n) ≤ f c := by
  induction n with
  | zero =>
    intro c hc
    have : c = 0 := by omega
    subst this
    simp [leftmost_argmin]
  | succ n ih =>
    intro c hc
    simp only [leftmost_argmin]
    by_cases hlt : f (n + 1) < f (leftmost_argmin f n)
    · simp only [hlt, if_true]
      by_cases hcn : c = n + 1
      · subst hcn; exact Nat.le_refl _
      · have := ih c (by omega)
        omega
    · simp only [hlt, if_false]
      by_cases hcn : c = n + 1
      · subst hcn; omega
      · exact ih c (by omega)

omit [DecidableEq α] in
theorem reverse_take_sub (b : List α) (c : Nat) (hc : c ≤ b.length) :
    b.reverse.take (b.length - c) = (b.drop c).reverse := by
  rw [List.take_reverse]
  congr 2
  omega

theorem midpoint_column_spec (a b : List α) (r : Nat) :
    midpoint_column a b r ≤ b.length ∧
    levenshtein_distance (a.take r) (b.take (midpoint_column a b r)) +
      levenshtein_distance (a.drop r) (b.drop (midpoint_column a b r)) =
        levenshtein_distance a b := by
  have hval : ∀ c, c ≤ b.length →
      (score_vector (a.take r) b).getD c 0 +
        (score_vector (a.drop r).reverse b.reverse).getD (b.length - c) 0 =
      levenshtein_distance (a.take r) (b.take c) +
        levenshtein_distance (a.drop r) (b.drop c) := by
    intro c hc
    rw [score_vector_getD _ _ _ hc,
      score_vector_getD _ _ _ (by rw [List.length_reverse]; omega),
      reverse_take_sub b c hc, lev_reverse]
  have hle := leftmost_argmin_le
    (fun c => (score_vector (a.take r) b).getD c 0 +
      (score_vector (a.drop r).reverse b.reverse).getD (b.length - c) 0) b.length
  have hmin := leftmost_argmin_min
    (fun c => (score_vector (a.take r) b).getD c 0 +
      (score_vector (a.drop r).reverse b.reverse).getD (b.length - c) 0) b.length
  refine ⟨hle, ?_⟩
  obtain ⟨c0, hc0, e0⟩ := lev_split_exists (a.take r) (a.drop r) b
  rw [List.take_append_drop] at e0
  have h1 := hmin c0 hc0
  simp only at h1
  rw [hval c0 hc0] at h1
  have h2 := hval _ hle
  have low := lev_append_le (a.take r) (a.drop r) (b.take (midpoint_column a b r))
    (b.drop (midpoint_column a b r))
  rw [List.take_append_drop, List.take_append_drop] at low
  unfold midpoint_column at low ⊢
  simp only at low ⊢
  omega

theorem shift_ops_length (ds dd : Nat) (ops : List EditOp) :
    (shift_ops ds dd ops).length = ops.length := by
  simp [shift_ops]

theorem hirschberg_length (fuel : Nat) :
    ∀ (a b : List α), a.length ≤ fuel →
      (hirschberg fuel a b).length = levenshtein_distance a b := by
  induction fuel with
  | zero =>
    intro a b h
    have : a = [] := List.length_eq_zero.mp (by omega)
    subst this
    simp [hirschberg, insert_all, lev_nil_left]
  | succ fuel ih =>
    intro a b h
    match a, b, h with
    | [], b, _ => simp [hirschberg, insert_all, lev_nil_left]
    | x :: xs, [], _ => simp [hirschberg, delete_all, lev_nil_right]
    | [x], y :: ys, _ =>
      simp only [hirschberg]
      exact scan_single_source_length x (y :: ys) (List.cons_ne_nil _ _)
    | x1 :: x2 :: xs, [y], _ =>
      simp only [hirschberg]
      exact scan_single_dest_length (x1 :: x2 :: xs) y (List.cons_ne_nil _ _)
    | x1 :: x2 :: xs, y1 :: y2 :: ys, h =>
      simp only [hirschberg, List.length_append, shift_ops_length]
      have hsp := midpoint_column_spec (x1 :: x2 :: xs) (y1 :: y2 :: ys)
        ((x1 :: x2 :: xs).length / 2)
      have hl : (x1 :: x2 :: xs).length = xs.length + 2 := rfl
      rw [ih _ _ (by rw [List.length_take]; omega),
        ih _ _ (by rw [List.length_drop]; omega)]
      exact hsp.2

/-! ### `mismatch` and the two trimming steps -/

theorem mismatch_decomp (a b : List α) :
    ∃ x : List α, a = x ++ (mismatch a b).1 ∧ b = x ++ (mismatch a b).2 ∧
      ((mismatch a b).1 = [] ∨ (mismatch a b).2 = [] ∨
        (mismatch a b).1.head? ≠ (mismatch a b).2.head?) := by
  induction a generalizing b with
  | nil => exact ⟨[], by simp [mismatch]⟩
  | cons x xs ih =>
    cases b with
    | nil => exact ⟨[], by simp [mismatch]⟩
    | cons y ys =>
      by_cases h : x = y
      · subst h
        obtain ⟨p, h1, h2, h3⟩ := ih ys
        refine ⟨x :: p, ?_, ?_, ?_⟩
        · simp only [mismatch, if_true, List.cons_append]; rw [← h1]
        · simp only [mismatch, if_true, List.cons_append]; rw [← h2]
        · simpa only [mismatch, if_true] using h3
      · exact ⟨[], by simp [mismatch, h]⟩

/-- What `remove_common_prefix` does, in terms of list concatenation. -/
theorem remove_common_prefix_decomp (a b : List α) :
    ∃ x : List α, x.length = ( remove_common_prefix a b).1 ∧
      a = x ++ ( remove_common_prefix a b).2.1 ∧ b = x ++ ( remove_common_prefix a b).2.2 ∧
      (( remove_common_prefix a b).2.1 = [] ∨ ( remove_common_prefix a b).2.2 = [] ∨
        ( remove_common_prefix a b).2.1.head? ≠ ( remove_common_prefix a b).2.2.head?) := by
  obtain ⟨x, h1, h2, h3⟩ := mismatch_decomp a b
  have hk : a.length - (mismatch a b).1.length = x.length := by
    have := congrArg List.length h1
    simp only [List.length_append] at this
    omega
  have ha : a.drop x.length = (mismatch a b).1 := by
    conv_lhs => rw [h1]
    simp
  have hb : b.drop x.length = (mismatch a b).2 := by
    conv_lhs => rw [h2]
    simp
  refine ⟨x, ?_, ?_, ?_, ?_⟩
  · simp only [ remove_common_prefix, hk]
  · simp only [ remove_common_prefix, remove_prefix, hk, ha]; exact h1
  · simp only [ remove_common_prefix, remove_prefix, hk, hb]; exact h2
  · simpa only [ remove_common_prefix, remove_prefix, hk, ha, hb] using h3

/-- What `remove_common_suffix` does, in terms of list concatenation. -/
theorem remove_common_suffix_decomp (a b : List α) :
    ∃ y : List α, y.length = (remove_common_suffix a b).1 ∧
      a = (remove_common_suffix a b).2.1 ++ y ∧ b = (remove_common_suffix a b).2.2 ++ y ∧
      ((remove_common_suffix a b).2.1 = [] ∨ (remove_common_suffix a b).2.2 = [] ∨
        (remove_common_suffix a b).2.1.getLast? ≠ (remove_common_suffix a b).2.2.getLast?) := by
  obtain ⟨x, h1, h2, h3⟩ := mismatch_decomp a.reverse b.reverse
  have hk : a.reverse.length - (mismatch a.reverse b.reverse).1.length = x.length := by
    have := congrArg List.length h1
    simp only [List.length_append] at this
    omega
  rw [List.length_reverse] at hk
  have h1' : a = (mismatch a.reverse b.reverse).1.reverse ++ x.reverse := by
    have := congrArg List.reverse h1
    simpa using this
  have h2' : b = (mismatch a.reverse b.reverse).2.reverse ++ x.reverse := by
    have := congrArg List.reverse h2
    simpa using this
  have ha : a.take (a.length - x.length) = (mismatch a.reverse b.reverse).1.reverse := by
    conv_lhs => rw [h1']
    simp
  have hb : b.take (b.length - x.length) = (mismatch a.reverse b.reverse).2.reverse := by
    conv_lhs => rw [h2']
    simp
  refine ⟨x.reverse, ?_, ?_, ?_, ?_⟩
  · simp only [remove_common_suffix, List.length_reverse, hk]
  · simp only [remove_common_suffix, remove_suffix, List.length_reverse, hk, ha]; exact h1'
  · simp only [remove_common_suffix, remove_suffix, List.length_reverse, hk, hb]; exact h2'
  · simp only [remove_common_suffix, remove_suffix, List.length_reverse, hk, ha, hb,
      List.getLast?_reverse,
      List.reverse_eq_nil_iff]
    exact h3

/-- Both trimming steps together, in terms of list concatenation. -/
theorem remove_common_affix_split (a b : List α) :
    ∃ x y : List α,
      x.length = (remove_common_affix a b).1.prefix_len ∧
      y.length = (remove_common_affix a b).1.suffix_len ∧
      a = x ++ (remove_common_affix a b).2.1 ++ y ∧
      b = x ++ (remove_common_affix a b).2.2 ++ y := by
  obtain ⟨x, hx, ha, hb, -⟩ := remove_common_prefix_decomp a b
  obtain ⟨y, hy, ha', hb', -⟩ :=
    remove_common_suffix_decomp ( remove_common_prefix a b).2.1 ( remove_common_prefix a b).2.2
  refine ⟨x, y, hx, hy, ?_, ?_⟩
  · show a = x ++ (remove_common_suffix ( remove_common_prefix a b).2.1
      ( remove_common_prefix a b).2.2).2.1 ++ y
    rw [List.append_assoc, ← ha', ← ha]
  · show b = x ++ (remove_common_suffix ( remove_common_prefix a b).2.1
      ( remove_common_prefix a b).2.2).2.2 ++ y
    rw [List.append_assoc, ← hb', ← hb]

/-- C4 (affix decomposition): `remove_common_affix a b` removes one and the same
`x` of length `prefix_len` from the front of both inputs and one and the same `y`
of length `suffix_len` from the back of both, and nothing else. -/
theorem remove_common_affix_decomp (a b : List α) :
    ∃ x y : List α,
      x.length = (remove_common_affix a b).1.prefix_len ∧
      y.length = (remove_common_affix a b).1.suffix_len ∧
      a = x ++ (remove_common_affix a b).2.1 ++ y ∧
      b = x ++ (remove_common_affix a b).2.2 ++ y :=
  remove_common_affix_split a b

/-- C3 (trimming preserves distance): the reference Levenshtein distance of the
views left by `remove_common_affix` equals the distance of the original inputs;
the same holds for the unit-cost edit distance of the mathematical library. -/
theorem remove_common_affix_preserves_distance (a b : List α) :
    levenshtein_distance (remove_common_affix a b).2.1 (remove_common_affix a b).2.2 =
      levenshtein_distance a b ∧
    levenshtein Levenshtein.defaultCost (remove_common_affix a b).2.1
        (remove_common_affix a b).2.2 =
      levenshtein Levenshtein.defaultCost a b := by
  have key : levenshtein_distance (remove_common_affix a b).2.1 (remove_common_affix a b).2.2 =
      levenshtein_distance a b := by
    obtain ⟨x, y, -, -, ha, hb⟩ := remove_common_affix_split a b
    generalize (remove_common_affix a b).2.1 = a' at *
    generalize (remove_common_affix a b).2.2 = b' at *
    rw [ha, hb, lev_append_right, lev_append_left]
  refine ⟨key, ?_⟩
  rw [← levenshtein_distance_eq_levenshtein, ← levenshtein_distance_eq_levenshtein]
  exact key

/-- C5: `remove_common_prefix` returns the length `k` of the longest common prefix
(index-wise equal below `k`, and `k` is the end of `a`, the end of `b`, or a
mismatch) and leaves both views with their first `k` elements dropped. -/
theorem remove_common_prefix_longest (a b : List α) :
    ( remove_common_prefix a b).1 ≤ a.length ∧
    ( remove_common_prefix a b).1 ≤ b.length ∧
    (∀ i, i < ( remove_common_prefix a b).1 → a[i]? = b[i]?) ∧
    (( remove_common_prefix a b).1 = a.length ∨ ( remove_common_prefix a b).1 = b.length ∨
      a[( remove_common_prefix a b).1]? ≠ b[( remove_common_prefix a b).1]?) ∧
    ( remove_common_prefix a b).2.1 = a.drop ( remove_common_prefix a b).1 ∧
    ( remove_common_prefix a b).2.2 = b.drop ( remove_common_prefix a b).1 := by
  obtain ⟨x, hx, ha, hb, hstop⟩ := remove_common_prefix_decomp a b
  generalize ( remove_common_prefix a b).1 = k at *
  generalize ( remove_common_prefix a b).2.1 = a' at *
  generalize ( remove_common_prefix a b).2.2 = b' at *
  subst hx ha hb
  refine ⟨by simp, by simp, ?_, ?_, by simp, by simp⟩
  · intro i hi
    rw [List.getElem?_append_left hi, List.getElem?_append_left hi]
  · rcases hstop with h | h | h
    · left; simp [h]
    · right; left; simp [h]
    · right; right
      simpa [List.getElem?_append_right, List.head?_eq_getElem?] using h

/-- C6: `remove_common_suffix` returns the length `k` of the longest common suffix,
scanning from the tail (equal at distance `i < k` from the end, and `k` is the
whole of `a`, the whole of `b`, or a mismatch) and leaves both views with their
last `k` elements dropped. -/
theorem remove_common_suffix_longest (a b : List α) :
    (remove_common_suffix a b).1 ≤ a.length ∧
    (remove_common_suffix a b).1 ≤ b.length ∧
    (∀ i, i < (remove_common_suffix a b).1 →
      a[a.length - 1 - i]? = b[b.length - 1 - i]?) ∧
    ((remove_common_suffix a b).1 = a.length ∨ (remove_common_suffix a b).1 = b.length ∨
      a[a.length - 1 - (remove_common_suffix a b).1]? ≠
        b[b.length - 1 - (remove_common_suffix a b).1]?) ∧
    (remove_common_suffix a b).2.1 = a.take (a.length - (remove_common_suffix a b).1) ∧
    (remove_common_suffix a b).2.2 = b.take (b.length - (remove_common_suffix a b).1) := by
  obtain ⟨y, hy, ha, hb, hstop⟩ := remove_common_suffix_decomp a b
  generalize (remove_common_suffix a b).1 = k at *
  generalize (remove_common_suffix a b).2.1 = a' at *
  generalize (remove_common_suffix a b).2.2 = b' at *
  subst hy ha hb
  refine ⟨by simp, by simp, ?_, ?_, by simp, by simp⟩
  · intro i hi
    rw [List.getElem?_append_right (by simp; omega),
      List.getElem?_append_right (by simp; omega)]
    congr 1
    simp only [List.length_append]
    omega
  · rcases hstop with h | h | h
    · left; simp [h]
    · right; left; simp [h]
    · by_cases ha0 : a' = []
      · left; simp [ha0]
      by_cases hb0 : b' = []
      · right; left; simp [hb0]
      right; right
      have la : 0 < a'.length := List.length_pos.mpr ha0
      have lb : 0 < b'.length := List.length_pos.mpr hb0
      have ea : (a' ++ y).length - 1 - y.length = a'.length - 1 := by
        simp only [List.length_append]; omega
      have eb : (b' ++ y).length - 1 - y.length = b'.length - 1 := by
        simp only [List.length_append]; omega
      rw [ea, eb, List.getElem?_append_left (by omega), List.getElem?_append_left (by omega)]
      simpa [List.getLast?_eq_getElem?] using h

/-! ### Overlap, idempotence and prefix inputs -/

theorem mismatch_of_stop (a b : List α)
    (h : a = [] ∨ b = [] ∨ a.head? ≠ b.head?) : mismatch a b = (a, b) := by
  cases a with
  | nil => simp [mismatch]
  | cons x xs =>
    cases b with
    | nil => simp [mismatch]
    | cons y ys =>
      have hxy : x ≠ y := by
        rcases h with h | h | h
        · simp at h
        · simp at h
        · simpa using h
      simp [mismatch, hxy]

theorem remove_common_prefix_of_stop (a b : List α)
    (h : a = [] ∨ b = [] ∨ a.head? ≠ b.head?) : remove_common_prefix a b = (0, a, b) := by
  simp [ remove_common_prefix, remove_prefix, mismatch_of_stop a b h]

theorem remove_common_suffix_of_stop (a b : List α)
    (h : a = [] ∨ b = [] ∨ a.getLast? ≠ b.getLast?) : remove_common_suffix a b = (0, a, b) := by
  have h' : a.reverse = [] ∨ b.reverse = [] ∨ a.reverse.head? ≠ b.reverse.head? := by
    simpa [List.head?_reverse] using h
  simp [remove_common_suffix, remove_suffix, mismatch_of_stop _ _ h']

/-- After both trimming steps the views start differently and end differently,
unless one of them is empty. -/
theorem remove_common_affix_stop (a b : List α) :
    ((remove_common_affix a b).2.1 = [] ∨ (remove_common_affix a b).2.2 = [] ∨
      (remove_common_affix a b).2.1.head? ≠ (remove_common_affix a b).2.2.head?) ∧
    ((remove_common_affix a b).2.1 = [] ∨ (remove_common_affix a b).2.2 = [] ∨
      (remove_common_affix a b).2.1.getLast? ≠ (remove_common_affix a b).2.2.getLast?) := by
  obtain ⟨x, -, -, -, hp⟩ := remove_common_prefix_decomp a b
  obtain ⟨y, -, ha, hb, hs⟩ :=
    remove_common_suffix_decomp ( remove_common_prefix a b).2.1 ( remove_common_prefix a b).2.2
  have eA : (remove_common_affix a b).2.1 = (remove_common_suffix ( remove_common_prefix a b).2.1
      ( remove_common_prefix a b).2.2).2.1 := rfl
  have eB : (remove_common_affix a b).2.2 = (remove_common_suffix ( remove_common_prefix a b).2.1
      ( remove_common_prefix a b).2.2).2.2 := rfl
  rw [eA, eB]
  generalize ( remove_common_prefix a b).2.1 = a1 at *
  generalize ( remove_common_prefix a b).2.2 = b1 at *
  refine ⟨?_, hs⟩
  generalize (remove_common_suffix a1 b1).2.1 = a2 at *
  generalize (remove_common_suffix a1 b1).2.2 = b2 at *
  by_cases ha2 : a2 = []
  · exact Or.inl ha2
  by_cases hb2 : b2 = []
  · exact Or.inr (Or.inl hb2)
  right; right
  subst ha hb
  rcases hp with h | h | h
  · simp [ha2] at h
  · simp [hb2] at h
  · cases a2 with
    | nil => exact absurd rfl ha2
    | cons p ps =>
      cases b2 with
      | nil => exact absurd rfl hb2
      | cons q qs => simpa using h

theorem remove_common_affix_of_stop (a b : List α)
    (h1 : a = [] ∨ b = [] ∨ a.head? ≠ b.head?)
    (h2 : a = [] ∨ b = [] ∨ a.getLast? ≠ b.getLast?) :
    remove_common_affix a b = (⟨0, 0⟩, a, b) := by
  simp [remove_common_affix, remove_common_prefix_of_stop a b h1,
    remove_common_suffix_of_stop a b h2]

/-- C14 (trimming is maximal and idempotent): a second `remove_common_affix` on the
views left by the first returns `{0, 0}` and leaves them unchanged; and when both
views are non-empty, their first elements differ and their last elements differ. -/
theorem remove_common_affix_idempotent (a b : List α) :
    remove_common_affix (remove_common_affix a b).2.1 (remove_common_affix a b).2.2 =
      (⟨0, 0⟩, (remove_common_affix a b).2.1, (remove_common_affix a b).2.2) ∧
    ((remove_common_affix a b).2.1 ≠ [] → (remove_common_affix a b).2.2 ≠ [] →
      (remove_common_affix a b).2.1.head? ≠ (remove_common_affix a b).2.2.head? ∧
      (remove_common_affix a b).2.1.getLast? ≠ (remove_common_affix a b).2.2.getLast?) := by
  obtain ⟨h1, h2⟩ := remove_common_affix_stop a b
  refine ⟨remove_common_affix_of_stop _ _ h1 h2, ?_⟩
  intro ha hb
  constructor
  · rcases h1 with h | h | h
    · exact absurd h ha
    · exact absurd h hb
    · exact h
  · rcases h2 with h | h | h
    · exact absurd h ha
    · exact absurd h hb
    · exact h

/-- C13 (trimmed lengths never overlap): `prefix_len + suffix_len ≤ min(|a|, |b|)`.
The prefix step removes no more than either view holds, the suffix is computed
on the views the prefix step left and removes no more than either of those
holds; `"aa"`, `"aaa"` gives `{2, 0}`. -/
theorem trimmed_lengths_never_overlap (a b : List α) :
    (remove_common_affix a b).1.prefix_len + (remove_common_affix a b).1.suffix_len ≤
      min a.length b.length ∧
    (remove_common_affix a b).1.prefix_len = ( remove_common_prefix a b).1 ∧
    ( remove_common_prefix a b).1 ≤ a.length ∧
    ( remove_common_prefix a b).1 ≤ b.length ∧
    (remove_common_affix a b).1.suffix_len =
      (remove_common_suffix ( remove_common_prefix a b).2.1 ( remove_common_prefix a b).2.2).1 ∧
    (remove_common_affix a b).1.suffix_len ≤ ( remove_common_prefix a b).2.1.length ∧
    (remove_common_affix a b).1.suffix_len ≤ ( remove_common_prefix a b).2.2.length ∧
    remove_common_affix [97, 97] [97, 97, 97] = (⟨2, 0⟩, [], [97]) := by
  obtain ⟨x, y, hx, hy, ha, hb⟩ := remove_common_affix_split a b
  obtain ⟨x', hx', ha', hb', -⟩ := remove_common_prefix_decomp a b
  obtain ⟨y', hy', ha'', hb'', -⟩ :=
    remove_common_suffix_decomp ( remove_common_prefix a b).2.1 ( remove_common_prefix a b).2.2
  have la := congrArg List.length ha
  have lb := congrArg List.length hb
  have la' := congrArg List.length ha'
  have lb' := congrArg List.length hb'
  have la'' := congrArg List.length ha''
  have lb'' := congrArg List.length hb''
  simp only [List.length_append] at la lb la' lb' la'' lb''
  have es : (remove_common_affix a b).1.suffix_len =
      (remove_common_suffix ( remove_common_prefix a b).2.1
        ( remove_common_prefix a b).2.2).1 := rfl
  have ep : (remove_common_affix a b).1.prefix_len = ( remove_common_prefix a b).1 := rfl
  refine ⟨?_, ep, ?_, ?_, es, ?_, ?_, by decide⟩
  · rw [← hx, ← hy]; omega
  · rw [← hx']; omega
  · rw [← hx']; omega
  · rw [es, ← hy']; omega
  · rw [es, ← hy']; omega

theorem mismatch_prefix_left (a t : List α) : mismatch a (a ++ t) = ([], t) := by
  induction a with
  | nil => cases t <;> simp [mismatch]
  | cons x xs ih => simp [mismatch, ih]

theorem mismatch_prefix_right (a t : List α) : mismatch (a ++ t) a = (t, []) := by
  induction a with
  | nil => cases t <;> simp [mismatch]
  | cons x xs ih => simp [mismatch, ih]

theorem mismatch_nil_left (b : List α) : mismatch [] b = ([], b) := by
  cases b <;> simp [mismatch]

theorem mismatch_nil_right (a : List α) : mismatch a [] = (a, []) := by
  cases a <;> simp [mismatch]

theorem remove_common_affix_prefix_left (a t : List α) :
    remove_common_affix a (a ++ t) = (⟨a.length, 0⟩, [], t) := by
  simp [remove_common_affix, remove_common_prefix, remove_common_suffix, remove_prefix,
    remove_suffix, mismatch_prefix_left, mismatch_nil_left]

theorem remove_common_affix_prefix_right (a t : List α) :
    remove_common_affix (a ++ t) a = (⟨a.length, 0⟩, t, []) := by
  simp [remove_common_affix, remove_common_prefix, remove_common_suffix, remove_prefix,
    remove_suffix, mismatch_prefix_right, mismatch_nil_right]

/-- C15: equal inputs are trimmed away entirely by the prefix step
(`prefix_len = |a|`, `suffix_len = 0`, both views empty); more generally, when one
input is a prefix of the other, the shorter view becomes empty, `prefix_len` is
its length and `suffix_len` is 0. -/
theorem equal_inputs_trimmed_by_prefix_step (a t : List α) :
    remove_common_affix a a = (⟨a.length, 0⟩, [], []) ∧
    remove_common_affix a (a ++ t) = (⟨a.length, 0⟩, [], t) ∧
    remove_common_affix (a ++ t) a = (⟨a.length, 0⟩, t, []) := by
  refine ⟨?_, remove_common_affix_prefix_left a t, remove_common_affix_prefix_right a t⟩
  have := remove_common_affix_prefix_left a []
  simpa using this

end Trimming

section RoundTrip

open common

variable {α : Type}

/-! ### Composing edit scripts under `editops_apply` -/

theorem slice_split (s : List α) (lo mid hi : Nat) (h1 : lo ≤ mid) (h2 : mid ≤ hi) :
    (s.drop lo).take (hi - lo) =
      (s.drop lo).take (mid - lo) ++ (s.drop mid).take (hi - mid) := by
  have e : hi - lo = (mid - lo) + (hi - mid) := by omega
  rw [e, List.take_add, List.drop_drop]
  congr 3
  omega

theorem drop_split (s : List α) (lo mid : Nat) (h1 : lo ≤ mid) :
    s.drop lo = (s.drop lo).take (mid - lo) ++ s.drop mid := by
  conv_lhs => rw [← List.take_append_drop (mid - lo) (s.drop lo)]
  rw [List.drop_drop]
  congr 2
  omega

theorem walk_advance (s1 s2 : List α) (rest : List EditOp) (sp dp i j : Nat) (out : List α)
    (hs : sp ≤ i) (hd : dp ≤ j) (hok : head_ok rest i j) :
    editops_apply_walk s1 s2 rest sp dp out =
      editops_apply_walk s1 s2 rest i j (out ++ (s1.drop sp).take (i - sp)) := by
  cases rest with
  | nil =>
    simp only [editops_apply_walk, List.append_assoc]
    rw [← drop_split s1 sp i hs]
  | cons op rest =>
    have hop := hok op (by simp)
    have c1 : ¬ (op.source_index < sp ∨ op.dest_index < dp) := by omega
    have c2 : ¬ (op.source_index < i ∨ op.dest_index < j) := by omega
    have e := slice_split s1 sp i op.source_index hs hop.1
    simp only [editops_apply_walk, c1, c2, if_false, e, List.append_assoc]

theorem realizes_nil (s1 s2 : List α) (i0 j0 : Nat) : Realizes s1 s2 [] i0 j0 0 0 := by
  refine ⟨by simp, ?_⟩
  intro rest sp dp out hs hd hok
  simp only [List.nil_append, Nat.add_zero, List.take_zero, List.append_nil] at hok ⊢
  exact walk_advance s1 s2 rest sp dp i0 j0 out hs hd hok

theorem realizes_match (s1 s2 : List α) (i0 j0 m : Nat)
    (h : (s1.drop i0).take m = (s2.drop j0).take m) : Realizes s1 s2 [] i0 j0 m m := by
  refine ⟨by simp, ?_⟩
  intro rest sp dp out hs hd hok
  rw [List.nil_append,
    walk_advance s1 s2 rest sp dp (i0 + m) (j0 + m) out (by omega) (by omega) hok,
    slice_split s1 sp i0 (i0 + m) hs (by omega), ← h]
  simp only [Nat.add_sub_cancel_left, List.append_assoc]

theorem realizes_insert (s1 s2 : List α) (i0 j0 : Nat) (hi : i0 ≤ s1.length)
    (hj : j0 < s2.length) : Realizes s1 s2 [⟨EditType.Insert, i0, j0⟩] i0 j0 0 1 := by
  refine ⟨by simp, ?_⟩
  intro rest sp dp out hs hd hok
  show editops_apply_walk s1 s2 (⟨EditType.Insert, i0, j0⟩ :: rest) sp dp out = _
  have c1 : ¬ (i0 < sp ∨ j0 < dp) := by omega
  have c2 : ¬ (s1.length < i0) := by omega
  have e2 : s2[j0]? = some (s2[j0]) := List.getElem?_eq_getElem hj
  have e3 : (s2.drop j0).take 1 = [s2[j0]] := by
    rw [List.drop_eq_getElem_cons hj, List.take_succ_cons, List.take_zero]
  simp only [editops_apply_walk, c1, c2, if_false, e2, e3, Nat.add_zero]
  rw [walk_advance s1 s2 rest i0 j0 i0 (j0 + 1) _ (Nat.le_refl _) (by omega)
    (by simpa using hok)]
  simp

theorem realizes_delete (s1 s2 : List α) (i0 j0 : Nat) (hi : i0 < s1.length)
    (hj : j0 ≤ s2.length) : Realizes s1 s2 [⟨EditType.Delete, i0, j0⟩] i0 j0 1 0 := by
  refine ⟨by simp, ?_⟩
  intro rest sp dp out hs hd hok
  show editops_apply_walk s1 s2 (⟨EditType.Delete, i0, j0⟩ :: rest) sp dp out = _
  have c1 : ¬ (i0 < sp ∨ j0 < dp) := by omega
  have c2 : ¬ (s1.length ≤ i0 ∨ s2.length < j0) := by omega
  simp only [editops_apply_walk, c1, c2, if_false, Nat.add_zero,
    List.take_zero, List.append_nil]

theorem realizes_replace (s1 s2 : List α) (i0 j0 : Nat) (hi : i0 < s1.length)
    (hj : j0 < s2.length) : Realizes s1 s2 [⟨EditType.Replace, i0, j0⟩] i0 j0 1 1 := by
  refine ⟨by simp, ?_⟩
  intro rest sp dp out hs hd hok
  show editops_apply_walk s1 s2 (⟨EditType.Replace, i0, j0⟩ :: rest) sp dp out = _
  have c1 : ¬ (i0 < sp ∨ j0 < dp) := by omega
  have c2 : ¬ (s1.length ≤ i0) := by omega
  have e2 : s2[j0]? = some (s2[j0]) := List.getElem?_eq_getElem hj
  have e3 : (s2.drop j0).take 1 = [s2[j0]] := by
    rw [List.drop_eq_getElem_cons hj, List.take_succ_cons, List.take_zero]
  simp only [editops_apply_walk, c1, c2, if_false, e2, e3]
  rw [walk_advance s1 s2 rest (i0 + 1) j0 (i0 + 1) (j0 + 1) _ (Nat.le_refl _) (by omega)
    (by simpa using hok)]
  simp

theorem realizes_append (s1 s2 : List α) (ops1 ops2 : List EditOp) (i0 j0 m1 n1 m2 n2 : Nat)
    (h1 : Realizes s1 s2 ops1 i0 j0 m1 n1)
    (h2 : Realizes s1 s2 ops2 (i0 + m1) (j0 + n1) m2 n2) :
    Realizes s1 s2 (ops1 ++ ops2) i0 j0 (m1 + m2) (n1 + n2) := by
  refine ⟨?_, ?_⟩
  · intro op hop
    rcases List.mem_append.mp hop with h | h
    · exact h1.1 op h
    · have := h2.1 op h
      omega
  · intro rest sp dp out hs hd hok
    have hok1 : head_ok (ops2 ++ rest) (i0 + m1) (j0 + n1) := by
      intro op hop
      cases ops2 with
      | nil =>
        have := hok op (by simpa using hop)
        omega
      | cons o os =>
        have e : op = o := by simpa using hop.symm
        subst e
        exact h2.1 op (List.mem_cons_self _ _)
    rw [List.append_assoc, h1.2 (ops2 ++ rest) sp dp out hs hd hok1,
      h2.2 rest (i0 + m1) (j0 + n1) _ (Nat.le_refl _) (Nat.le_refl _)
        (by simpa [Nat.add_assoc] using hok)]
    have e : (s2.drop j0).take (n1 + n2) =
        (s2.drop j0).take n1 ++ (s2.drop (j0 + n1)).take n2 := by
      rw [List.take_add, List.drop_drop]
    rw [e]
    simp [Nat.add_assoc]

theorem realizes_insert_block (s1 s2 : List α) (i : Nat) (hi : i ≤ s1.length) :
    ∀ (k s : Nat), s + k ≤ s2.length →
      Realizes s1 s2 ((List.range' s k).map (fun j => ⟨EditType.Insert, i, j⟩)) i s 0 k := by
  intro k
  induction k with
  | zero => intro s _; exact realizes_nil s1 s2 i s
  | succ k ih =>
    intro s hs
    have h1 := realizes_insert s1 s2 i s hi (by omega)
    have h2 := ih (s + 1) (by omega)
    have h := realizes_append s1 s2 _ _ i s 0 1 0 k h1 h2
    have e : 1 + k = k + 1 := by omega
    rw [e] at h
    simpa [List.range'_succ] using h

theorem realizes_delete_block (s1 s2 : List α) (j : Nat) (hj : j ≤ s2.length) :
    ∀ (k s : Nat), s + k ≤ s1.length →
      Realizes s1 s2 ((List.range' s k).map (fun i => ⟨EditType.Delete, i, j⟩)) s j k 0 := by
  intro k
  induction k with
  | zero => intro s _; exact realizes_nil s1 s2 s j
  | succ k ih =>
    intro s hs
    have h1 := realizes_delete s1 s2 s j (by omega) hj
    have h2 := ih (s + 1) (by omega)
    have h := realizes_append s1 s2 _ _ s j 1 0 k 0 h1 h2
    have e : 1 + k = k + 1 := by omega
    rw [e] at h
    simpa [List.range'_succ] using h

theorem shift_ops_append (ds dd : Nat) (o1 o2 : List EditOp) :
    shift_ops ds dd (o1 ++ o2) = shift_ops ds dd o1 ++ shift_ops ds dd o2 := by
  simp [shift_ops]

theorem shift_ops_shift_ops (ds dd es ed : Nat) (o : List EditOp) :
    shift_ops ds dd (shift_ops es ed o) = shift_ops (es + ds) (ed + dd) o := by
  simp [shift_ops, Nat.add_assoc]

theorem shift_insert_range' (ds dd i s k : Nat) :
    shift_ops ds dd ((List.range' s k).map (fun j => ⟨EditType.Insert, i, j⟩)) =
      (List.range' (s + dd) k).map (fun j => ⟨EditType.Insert, i + ds, j⟩) := by
  induction k generalizing s with
  | zero => simp [shift_ops]
  | succ k ih =>
    have := ih (s + 1)
    simp only [shift_ops, List.range'_succ, List.map_cons, List.map_map] at this ⊢
    rw [this]
    congr 2
    congr 1
    omega

theorem shift_delete_range' (ds dd j s k : Nat) :
    shift_ops ds dd ((List.range' s k).map (fun i => ⟨EditType.Delete, i, j⟩)) =
      (List.range' (s + ds) k).map (fun i => ⟨EditType.Delete, i, j + dd⟩) := by
  induction k generalizing s with
  | zero => simp [shift_ops]
  | succ k ih =>
    have := ih (s + 1)
    simp only [shift_ops, List.range'_succ, List.map_cons, List.map_map] at this ⊢
    rw [this]
    congr 2
    congr 1
    omega

theorem realizes_insert_all (s1 s2 : List α) (i0 j0 n : Nat) (hi : i0 ≤ s1.length)
    (hj : j0 + n ≤ s2.length) :
    Realizes s1 s2 (shift_ops i0 j0 (insert_all n)) i0 j0 0 n := by
  have h := realizes_insert_block s1 s2 i0 hi n j0 hj
  unfold insert_all
  rw [List.range_eq_range', shift_insert_range']
  simpa using h

theorem realizes_delete_all (s1 s2 : List α) (i0 j0 m : Nat) (hi : i0 + m ≤ s1.length)
    (hj : j0 ≤ s2.length) :
    Realizes s1 s2 (shift_ops i0 j0 (delete_all m)) i0 j0 m 0 := by
  have h := realizes_delete_block s1 s2 j0 hj m i0 hi
  unfold delete_all
  rw [List.range_eq_range', shift_delete_range']
  simpa using h

theorem sub_slice (s b : List α) (j0 n c k : Nat) (h : (s.drop j0).take n = b)
    (hck : c + k ≤ n) : (s.drop (j0 + c)).take k = (b.drop c).take k := by
  subst h
  rw [List.drop_take, List.take_take, List.drop_drop]
  congr 1
  omega

variable [DecidableEq α]

theorem take_one_drop_indexOf (x : α) (b : List α) (h : x ∈ b) :
    (b.drop (b.indexOf x)).take 1 = [x] := by
  have hp : b.indexOf x < b.length := List.indexOf_lt_length.mpr h
  rw [List.drop_eq_getElem_cons hp, List.take_succ_cons, List.take_zero]
  simp

theorem realizes_scan_single_source (s1 s2 : List α) (x : α) (b : List α) (i0 j0 : Nat)
    (hb : b ≠ []) (h1 : (s1.drop i0).take 1 = [x]) (h2 : (s2.drop j0).take b.length = b)
    (hi : i0 + 1 ≤ s1.length) (hj : j0 + b.length ≤ s2.length) :
    Realizes s1 s2 (shift_ops i0 j0 (scan_single_source x b)) i0 j0 1 b.length := by
  have hpos : 0 < b.length := List.length_pos.mpr hb
  unfold scan_single_source
  by_cases hx : x ∈ b
  · have hp : b.indexOf x < b.length := List.indexOf_lt_length.mpr hx
    simp only [hx, if_true, List.append_nil]
    rw [shift_ops_append, List.range_eq_range', shift_insert_range', shift_insert_range']
    have hbefore := realizes_insert_block s1 s2 i0 (by omega) (b.indexOf x) j0 (by omega)
    have hmid : Realizes s1 s2 [] i0 (j0 + b.indexOf x) 1 1 := by
      apply realizes_match
      rw [h1, sub_slice s2 b j0 b.length (b.indexOf x) 1 h2 (by omega),
        take_one_drop_indexOf x b hx]
    have hafter := realizes_insert_block s1 s2 (i0 + 1) hi
      (b.length - (b.indexOf x + 1)) (j0 + b.indexOf x + 1) (by omega)
    have h12 := realizes_append s1 s2 _ _ i0 j0 0 (b.indexOf x) 1 1 hbefore hmid
    have h123 := realizes_append s1 s2 _ _ i0 j0 (0 + 1) (b.indexOf x + 1) 0
      (b.length - (b.indexOf x + 1)) h12 hafter
    have e1 : b.indexOf x + 1 + (b.length - (b.indexOf x + 1)) = b.length := by omega
    have e2 : b.indexOf x + 1 + j0 = j0 + b.indexOf x + 1 := by omega
    have e3 : 1 + i0 = i0 + 1 := by omega
    rw [e1] at h123
    simpa [e2, e3] using h123
  · simp only [hx, if_false, List.range_zero, List.map_nil, List.nil_append, Nat.zero_add]
    rw [shift_ops_append, shift_insert_range']
    have hmid := realizes_replace s1 s2 i0 j0 (by omega) (by omega)
    have hafter := realizes_insert_block s1 s2 (i0 + 1) hi (b.length - 1) (j0 + 1) (by omega)
    have h := realizes_append s1 s2 _ _ i0 j0 1 1 0 (b.length - 1) hmid hafter
    have e1 : 1 + (b.length - 1) = b.length := by omega
    have e2 : 1 + j0 = j0 + 1 := by omega
    have e3 : 1 + i0 = i0 + 1 := by omega
    rw [e1] at h
    simpa [shift_ops, e2, e3] using h

theorem realizes_scan_single_dest (s1 s2 : List α) (a : List α) (y : α) (i0 j0 : Nat)
    (ha : a ≠ []) (h1 : (s1.drop i0).take a.length = a) (h2 : (s2.drop j0).take 1 = [y])
    (hi : i0 + a.length ≤ s1.length) (hj : j0 + 1 ≤ s2.length) :
    Realizes s1 s2 (shift_ops i0 j0 (scan_single_dest a y)) i0 j0 a.length 1 := by
  have hpos : 0 < a.length := List.length_pos.mpr ha
  unfold scan_single_dest
  by_cases hy : y ∈ a
  · have hp : a.indexOf y < a.length := List.indexOf_lt_length.mpr hy
    simp only [hy, if_true, List.append_nil]
    rw [shift_ops_append, List.range_eq_range', shift_delete_range', shift_delete_range']
    have hbefore := realizes_delete_block s1 s2 j0 (by omega) (a.indexOf y) i0 (by omega)
    have hmid : Realizes s1 s2 [] (i0 + a.indexOf y) j0 1 1 := by
      apply realizes_match
      rw [h2, sub_slice s1 a i0 a.length (a.indexOf y) 1 h1 (by omega),
        take_one_drop_indexOf y a hy]
    have hafter := realizes_delete_block s1 s2 (j0 + 1) hj
      (a.length - (a.indexOf y + 1)) (i0 + a.indexOf y + 1) (by omega)
    have h12 := realizes_append s1 s2 _ _ i0 j0 (a.indexOf y) 0 1 1 hbefore hmid
    have h123 := realizes_append s1 s2 _ _ i0 j0 (a.indexOf y + 1) (0 + 1)
      (a.length - (a.indexOf y + 1)) 0 h12 hafter
    have e1 : a.indexOf y + 1 + (a.length - (a.indexOf y + 1)) = a.length := by omega
    have e2 : a.indexOf y + 1 + i0 = i0 + a.indexOf y + 1 := by omega
    have e3 : 1 + j0 = j0 + 1 := by omega
    rw [e1] at h123
    simpa [e2, e3] using h123
  · simp only [hy, if_false, List.range_zero, List.map_nil, List.nil_append, Nat.zero_add]
    rw [shift_ops_append, shift_delete_range']
    have hmid := realizes_replace s1 s2 i0 j0 (by omega) (by omega)
    have hafter := realizes_delete_block s1 s2 (j0 + 1) hj (a.length - 1) (i0 + 1) (by omega)
    have h := realizes_append s1 s2 _ _ i0 j0 1 1 (a.length - 1) 0 hmid hafter
    have e1 : 1 + (a.length - 1) = a.length := by omega
    have e2 : 1 + j0 = j0 + 1 := by omega
    have e3 : 1 + i0 = i0 + 1 := by omega
    rw [e1] at h
    simpa [shift_ops, e2, e3] using h

/-- The inner recursion, shifted to `(i0, j0)`, turns the source view into the
target view. -/
theorem realizes_hirschberg (s1 s2 : List α) (fuel : Nat) :
    ∀ (a b : List α) (i0 j0 : Nat), a.length ≤ fuel →
      (s1.drop i0).take a.length = a → (s2.drop j0).take b.length = b →
      i0 + a.length ≤ s1.length → j0 + b.length ≤ s2.length →
      Realizes s1 s2 (shift_ops i0 j0 (hirschberg fuel a b)) i0 j0 a.length b.length := by
  induction fuel with
  | zero =>
    intro a b i0 j0 hf ha hb hi hj
    have : a = [] := List.length_eq_zero.mp (by omega)
    subst this
    simp only [hirschberg, List.length_nil]
    exact realizes_insert_all s1 s2 i0 j0 b.length (by simpa using hi) hj
  | succ fuel ih =>
    intro a b i0 j0 hf ha hb hi hj
    match a, b, hf, ha, hb, hi, hj with
    | [], b, _, _, _, hi, hj =>
      simp only [hirschberg, List.length_nil]
      exact realizes_insert_all s1 s2 i0 j0 b.length (by simpa using hi) hj
    | x :: xs, [], _, _, _, hi, hj =>
      simp only [hirschberg, List.length_nil]
      exact realizes_delete_all s1 s2 i0 j0 (x :: xs).length hi (by simpa using hj)
    | [x], y :: ys, _, ha, hb, hi, hj =>
      simp only [hirschberg]
      exact realizes_scan_single_source s1 s2 x (y :: ys) i0 j0 (List.cons_ne_nil _ _)
        ha hb hi hj
    | x1 :: x2 :: xs, [y], _, ha, hb, hi, hj =>
      simp only [hirschberg]
      exact realizes_scan_single_dest s1 s2 (x1 :: x2 :: xs) y i0 j0 (List.cons_ne_nil _ _)
        ha hb hi hj
    | x1 :: x2 :: xs, y1 :: y2 :: ys, hf, ha, hb, hi, hj =>
      simp only [hirschberg]
      generalize hA : x1 :: x2 :: xs = a at *
      generalize hB : y1 :: y2 :: ys = b at *
      have hla : 2 ≤ a.length := by rw [← hA]; simp
      have hc := (midpoint_column_spec a b (a.length / 2)).1
      generalize midpoint_column a b (a.length / 2) = c at *
      generalize hr : a.length / 2 = r at *
      have hr1 : 1 ≤ r := by omega
      have hr2 : r < a.length := by omega
      rw [shift_ops_append, shift_ops_shift_ops]
      have l1 : (a.take r).length = r := by rw [List.length_take]; omega
      have l2 : (a.drop r).length = a.length - r := List.length_drop _ _
      have l3 : (b.take c).length = c := by rw [List.length_take]; omega
      have l4 : (b.drop c).length = b.length - c := List.length_drop _ _
      have p1 := ih (a.take r) (b.take c) i0 j0 (by omega)
        (by rw [l1]; have := sub_slice s1 a i0 a.length 0 r ha (by omega); simpa using this)
        (by rw [l3]; have := sub_slice s2 b j0 b.length 0 c hb (by omega); simpa using this)
        (by omega) (by omega)
      have p2 := ih (a.drop r) (b.drop c) (i0 + r) (j0 + c) (by omega)
        (by
          rw [l2]
          have := sub_slice s1 a i0 a.length r (a.length - r) ha (by omega)
          rw [this, List.take_of_length_le (by rw [l2])])
        (by
          rw [l4]
          have := sub_slice s2 b j0 b.length c (b.length - c) hb (by omega)
          rw [this, List.take_of_length_le (by rw [l4])])
        (by omega) (by omega)
      rw [l1, l3] at p1
      rw [l2, l4] at p2
      have p := realizes_append s1 s2 _ _ i0 j0 r c (a.length - r) (b.length - c) p1 p2
      have e1 : r + (a.length - r) = a.length := by omega
      have e2 : c + (b.length - c) = b.length := by omega
      have e3 : r + i0 = i0 + r := by omega
      have e4 : c + j0 = j0 + c := by omega
      rw [e1, e2] at p
      rw [e3, e4]
      exact p

/-- The kernel on `"kitten"` against `"sitting"`: the score vector holds the
distances to the prefixes of the target, on the multi-word path with three 2-bit
words, and on one 64-bit word. -/
theorem myers_score_vector_kitten_sitting :
    myers_score_vector 2 [107, 105, 116, 116, 101, 110] [115, 105, 116, 116, 105, 110, 103] =
      [6, 6, 5, 4, 3, 3, 2, 3] ∧
    score_vector [107, 105, 116, 116, 101, 110] [115, 105, 116, 116, 105, 110, 103] =
      [6, 6, 5, 4, 3, 3, 2, 3] := by
  constructor <;> decide

/-- The first concrete scenario of the spec: `"kitten"` to `"sitting"` gives
`[Replace(0,0), Replace(4,4), Insert(6,6)]`, and applying it yields `"sitting"`. -/
theorem levenshtein_editops_kitten_sitting :
    (levenshtein_editops [107, 105, 116, 116, 101, 110] [115, 105, 116, 116, 105, 110, 103]).ops =
      [⟨EditType.Replace, 0, 0⟩, ⟨EditType.Replace, 4, 4⟩, ⟨EditType.Insert, 6, 6⟩] ∧
    editops_apply
        (levenshtein_editops [107, 105, 116, 116, 101, 110] [115, 105, 116, 116, 105, 110, 103])
        [107, 105, 116, 116, 101, 110] [115, 105, 116, 116, 105, 110, 103] =
      Except.ok [115, 105, 116, 116, 105, 110, 103] := by
  constructor
  · decide
  · rfl

/-- Another scenario of the spec: `"abc"` to the empty sequence is three deletions. -/
theorem levenshtein_editops_abc_empty :
    (levenshtein_editops [97, 98, 99] ([] : List Nat)).ops =
      [⟨EditType.Delete, 0, 0⟩, ⟨EditType.Delete, 1, 0⟩, ⟨EditType.Delete, 2, 0⟩] := by
  decide

/-- C1 (round trip): applying `levenshtein_editops s1 s2` to `s1` succeeds and yields
`s2` exactly, for every pair of sequences (in particular every pair of byte
strings, doubled or not). -/
theorem levenshtein_editops_round_trip (s1 s2 : List α) :
    editops_apply (levenshtein_editops s1 s2) s1 s2 = Except.ok s2 := by
  obtain ⟨x, y, hx, -, ha, hb⟩ := remove_common_affix_split s1 s2
  unfold editops_apply levenshtein_editops
  simp only
  generalize (remove_common_affix s1 s2).2.1 = a at *
  generalize (remove_common_affix s1 s2).2.2 = b at *
  rw [← hx]
  have hs1 : (s1.drop x.length).take a.length = a := by
    rw [ha]; simp
  have hs2 : (s2.drop x.length).take b.length = b := by
    rw [hb]; simp
  have hl1 : x.length + a.length ≤ s1.length := by rw [ha]; simp
  have hl2 : x.length + b.length ≤ s2.length := by rw [hb]; simp
  have h := realizes_hirschberg s1 s2 a.length a b x.length x.length (Nat.le_refl _)
    hs1 hs2 hl1 hl2
  have h' := h.2 [] 0 0 [] (Nat.zero_le _) (Nat.zero_le _) (by intro op hop; simp at hop)
  rw [List.append_nil] at h'
  rw [h', hs2]
  simp only [editops_apply_walk, List.nil_append, List.drop_zero, Nat.sub_zero]
  congr 1
  rw [hb]
  conv_lhs => rw [ha]
  simp

/-- C2 (editop cardinality): the number of operations of `levenshtein_editops s1 s2`
equals the reference Levenshtein distance of `s1` and `s2` (which is also the
unit-cost edit distance of the mathematical library). -/
theorem levenshtein_editops_cardinality (s1 s2 : List α) :
    (levenshtein_editops s1 s2).ops.length = levenshtein_distance s1 s2 ∧
    (levenshtein_editops s1 s2).ops.length = levenshtein Levenshtein.defaultCost s1 s2 := by
  have key : (levenshtein_editops s1 s2).ops.length = levenshtein_distance s1 s2 := by
    unfold levenshtein_editops
    simp only [shift_ops_length]
    rw [hirschberg_length _ _ _ (Nat.le_refl _)]
    obtain ⟨x, y, -, -, ha, hb⟩ := remove_common_affix_split s1 s2
    generalize (remove_common_affix s1 s2).2.1 = a at *
    generalize (remove_common_affix s1 s2).2.2 = b at *
    rw [ha, hb, lev_append_right, lev_append_left]
  exact ⟨key, key.trans (levenshtein_distance_eq_levenshtein s1 s2)⟩

end RoundTrip

section Tokenisation

open common

/-! ### `sorted_split` -/

theorem find_if_eq_dropWhile {α : Type} (pred : α → Bool) (l : List α) :
    find_if pred l = l.dropWhile (fun c => !pred c) := by
  induction l with
  | nil => rfl
  | cons c cs ih =>
    by_cases h : pred c
    · simp [find_if, List.dropWhile, h]
    · simp [find_if, List.dropWhile, h, ih]

theorem take_find_if {α : Type} (pred : α → Bool) (l : List α) :
    l.take (l.length - (find_if pred l).length) = l.takeWhile (fun c => !pred c) := by
  have h := List.takeWhile_append_dropWhile (fun c => !pred c) l
  rw [find_if_eq_dropWhile]
  have hlen := congrArg List.length h
  rw [List.length_append] at hlen
  have hl : l.length - (List.dropWhile (fun c => !pred c) l).length
      = (List.takeWhile (fun c => !pred c) l).length := by omega
  rw [hl]
  have key : List.take (List.takeWhile (fun c => !pred c) l).length
      (List.takeWhile (fun c => !pred c) l ++ List.dropWhile (fun c => !pred c) l)
      = List.takeWhile (fun c => !pred c) l := List.take_left' rfl
  rw [h] at key
  exact key

theorem nonspace_runs_nil (pred : Nat → Bool) : nonspace_runs pred [] = [] := by
  simp [nonspace_runs, List.splitOnP_nil]

theorem nonspace_runs_no_sep (pred : Nat → Bool) (l : List Nat) (hl : l ≠ [])
    (h : ∀ c ∈ l, ¬ pred c = true) : nonspace_runs pred l = [l] := by
  simp [nonspace_runs, List.splitOnP_eq_single pred l h, hl]

theorem nonspace_runs_sep (pred : Nat → Bool) (w rest : List Nat) (sep : Nat)
    (h : ∀ c ∈ w, ¬ pred c = true) (hsep : pred sep = true) :
    nonspace_runs pred (w ++ sep :: rest) =
      (if w.length ≠ 0 then [w] else []) ++ nonspace_runs pred rest := by
  unfold nonspace_runs
  rw [List.splitOnP_first pred w h sep hsep]
  cases w <;> simp [List.filter]

theorem sorted_split_loop_eq (pred : Nat → Bool) :
    ∀ (fuel : Nat) (first second : List Nat) (splitted : List (List Nat)),
      first.length < fuel → (first ≠ [] → second ≠ []) →
      sorted_split_loop pred fuel first second splitted =
        splitted ++ nonspace_runs pred first := by
  intro fuel
  induction fuel with
  | zero => intro first second splitted h; omega
  | succ fuel ih =>
    intro first second splitted hfuel hsec
    by_cases hf : first = []
    · subst hf
      simp [sorted_split_loop, nonspace_runs_nil]
    · have hs := hsec hf
      have hcond : second ≠ [] ∧ first ≠ [] := ⟨hs, hf⟩
      have hsplit := List.takeWhile_append_dropWhile (fun c => !pred c) first
      have htw : ∀ c ∈ List.takeWhile (fun c => !pred c) first, ¬ pred c = true := by
        intro c hc
        have := List.mem_takeWhile_imp hc
        simpa using this
      simp only [sorted_split_loop, if_pos hcond]
      rw [take_find_if, find_if_eq_dropWhile]
      cases hd : List.dropWhile (fun c => !pred c) first with
      | nil =>
        rw [hd, List.append_nil] at hsplit
        have hne : first.length ≠ 0 := by
          intro h0; exact hf (List.length_eq_zero.mp h0)
        simp only [List.length_nil, ne_eq, hne, not_false_eq_true, if_true, List.drop_nil]
        rw [hsplit]
        have hall : ∀ c ∈ first, ¬ pred c = true := by
          rw [← hsplit]; exact htw
        rw [nonspace_runs_no_sep pred first hf hall]
        cases fuel <;> simp [sorted_split_loop]
      | cons sep rest =>
        have hsep : pred sep = true := by
          have := List.head_dropWhile_not (fun c => !pred c) first
            (by rw [hd]; exact List.cons_ne_nil _ _)
          simpa [hd] using this
        rw [hd] at hsplit
        have hlen := congrArg List.length hsplit
        simp only [List.length_append, List.length_cons] at hlen
        have hrest : rest.length < fuel := by omega
        simp only [List.drop_succ_cons, List.drop_zero]
        rw [ih rest (sep :: rest) _ hrest (fun _ => List.cons_ne_nil _ _)]
        conv_rhs => rw [← hsplit, nonspace_runs_sep pred _ rest sep htw hsep]
        by_cases h0 : (List.takeWhile (fun c => !pred c) first).length = 0
        · have e : first.length = rest.length + 1 := by omega
          simp [h0, e]
        · have e : ¬ first.length = rest.length + 1 := by omega
          simp [h0, e]

theorem splitOnP_no_sep (pred : Nat → Bool) (s : List Nat) :
    ∀ w ∈ s.splitOnP pred, ∀ c ∈ w, pred c = false := by
  induction s with
  | nil => simp [List.splitOnP_nil]
  | cons x xs ih =>
    rw [List.splitOnP_cons]
    by_cases hx : pred x = true
    · simp only [hx, if_true, List.mem_cons]
      rintro w (rfl | hw) c hc
      · simp at hc
      · exact ih w hw c hc
    · simp only [hx, if_false, Bool.false_eq_true]
      cases hsp : List.splitOnP pred xs with
      | nil => exact absurd hsp (List.splitOnP_ne_nil pred xs)
      | cons hd tl =>
        rw [hsp] at ih
        simp only [List.modifyHead_cons, List.mem_cons]
        rintro w (rfl | hw) c hc
        · rcases List.mem_cons.mp hc with rfl | hc
          · simpa using hx
          · exact ih hd (List.mem_cons_self _ _) c hc
        · exact ih w (List.mem_cons_of_mem _ hw) c hc

theorem nonspace_runs_mem (pred : Nat → Bool) (s : List Nat) :
    ∀ w ∈ nonspace_runs pred s, w ≠ [] ∧ ∀ c ∈ w, pred c = false := by
  intro w hw
  simp only [nonspace_runs, List.mem_filter] at hw
  refine ⟨?_, splitOnP_no_sep pred s w hw.1⟩
  intro h
  simp [h] at hw

theorem nonspace_runs_eq_nil_iff (pred : Nat → Bool) (s : List Nat) :
    nonspace_runs pred s = [] ↔ ∀ c ∈ s, pred c = true := by
  induction s with
  | nil => simp [nonspace_runs, List.splitOnP_nil]
  | cons x xs ih =>
    unfold nonspace_runs at ih ⊢
    rw [List.splitOnP_cons]
    by_cases hx : pred x = true
    · simp only [hx, if_true, List.mem_cons, forall_eq_or_imp, true_and]
      rw [← ih]
      simp [List.filter]
    · simp only [hx, if_false, Bool.false_eq_true, List.mem_cons, forall_eq_or_imp, false_and,
        iff_false]
      cases hsp : List.splitOnP pred xs with
      | nil => exact absurd hsp (List.splitOnP_ne_nil pred xs)
      | cons hd tl => simp [List.filter]

theorem string_view_lt_iff_lex (a b : List Nat) :
    string_view_lt a b = true ↔ List.Lex (· < ·) a b := by
  induction a generalizing b with
  | nil =>
    cases b with
    | nil => simp [string_view_lt, List.Lex.not_nil_right]
    | cons y ys => simp [string_view_lt, List.Lex.nil]
  | cons x xs ih =>
    cases b with
    | nil => simp [string_view_lt, List.Lex.not_nil_right]
    | cons y ys =>
      rcases Nat.lt_trichotomy x y with h | h | h
      · simp [string_view_lt, h, List.Lex.rel h]
      · subst h
        simp [string_view_lt, ih ys, List.Lex.cons_iff]
      · have h1 : ¬ x < y := by omega
        have hne : x ≠ y := by omega
        simp only [string_view_lt, h1, h, if_false, if_true]
        constructor
        · intro hf; cases hf
        · intro hl
          cases hl with
          | cons hh => exact absurd rfl hne
          | rel hh => exact absurd hh h1

theorem sort_words_perm (ws : List (List Nat)) : (sort_words ws).Perm ws :=
  List.perm_insertionSort _ ws

theorem sort_words_sorted (ws : List (List Nat)) : (sort_words ws).Sorted lex_le := by
  show (sort_words ws).Sorted (fun a b => ¬ List.Lex (· < ·) b a)
  have hr : (fun a b : List Nat => string_view_lt b a = false) =
      (fun a b => ¬ List.Lex (· < ·) b a) := by
    funext a b
    rw [← string_view_lt_iff_lex]
    simp
  unfold sort_words
  haveI : IsTotal (List Nat) (fun a b => ¬ List.Lex (· < ·) b a) :=
    ⟨fun a b => by
      by_contra hc
      push_neg at hc
      exact (List.Lex.isAsymm (· < ·)).asymm _ _ hc.1 hc.2⟩
  haveI : IsTrans (List Nat) (fun a b => ¬ List.Lex (· < ·) b a) :=
    ⟨fun a b c hab hbc hca => by
      rcases (List.Lex.isOrderConnected (· < ·)).conn c b a hca with h | h
      · exact hbc h
      · exact hab h⟩
  have key := List.sorted_insertionSort (fun a b : List Nat => ¬ List.Lex (· < ·) b a) ws
  convert key using 2

theorem lex_le_antisymm (x y : List Nat) (h1 : lex_le x y) (h2 : lex_le y x) : x = y := by
  rcases (List.Lex.isTrichotomous (· < · : Nat → Nat → Prop)).trichotomous x y with h | h | h
  · exact absurd h h2
  · exact h
  · exact absurd h h1

theorem sorted_lex_le_ext (A B : List (List Nat)) (hA : A.Sorted lex_le) (hB : B.Sorted lex_le)
    (hp : A.Perm B) : A = B := by
  haveI : IsAntisymm (List Nat) lex_le := ⟨lex_le_antisymm⟩
  exact List.eq_of_perm_of_sorted hp hA hB

theorem sorted_split_eq (sizeof_CharT : Nat) (s : List Nat) :
    sorted_split sizeof_CharT s = sort_words (nonspace_runs (is_space sizeof_CharT) s) := by
  unfold sorted_split
  rw [sorted_split_loop_eq _ _ _ _ _ (Nat.lt_succ_self _) (fun h => h)]
  rfl

theorem sorted_split_perm_runs (sizeof_CharT : Nat) (s : List Nat) :
    (sorted_split sizeof_CharT s).Perm (nonspace_runs (is_space sizeof_CharT) s) := by
  rw [sorted_split_eq]
  exact sort_words_perm _

theorem sorted_split_sorted (sizeof_CharT : Nat) (s : List Nat) :
    (sorted_split sizeof_CharT s).Sorted lex_le := by
  rw [sorted_split_eq]
  exact sort_words_sorted _

/-- C7: `sorted_split` is whitespace splitting followed by sorting.  The result is a
rearrangement of the maximal non-empty runs of non-whitespace code units of the
sentence in non-decreasing lexicographic order, and it is the only such list;
every word is non-empty and free of whitespace, and the result is empty exactly
when every code unit of the sentence is whitespace (in particular for the empty
sentence). -/
theorem sorted_split_is_sorted_whitespace_split (sizeof_CharT : Nat) (s : List Nat) :
    (sorted_split sizeof_CharT s).Perm (nonspace_runs (is_space sizeof_CharT) s) ∧
    (sorted_split sizeof_CharT s).Sorted lex_le ∧
    (∀ l : List (List Nat), l.Perm (nonspace_runs (is_space sizeof_CharT) s) →
      l.Sorted lex_le → sorted_split sizeof_CharT s = l) ∧
    (∀ w ∈ sorted_split sizeof_CharT s,
      w ≠ [] ∧ ∀ c ∈ w, is_space sizeof_CharT c = false) ∧
    (sorted_split sizeof_CharT s = [] ↔ ∀ c ∈ s, is_space sizeof_CharT c = true) := by
  refine ⟨sorted_split_perm_runs _ _, sorted_split_sorted _ _, ?_, ?_, ?_⟩
  · intro l hp hs
    exact sorted_lex_le_ext _ _ (sorted_split_sorted _ _) hs
      ((sorted_split_perm_runs _ _).trans hp.symm)
  · intro w hw
    exact nonspace_runs_mem _ s w ((sorted_split_perm_runs _ _).mem_iff.mp hw)
  · rw [← nonspace_runs_eq_nil_iff]
    constructor
    · intro h
      exact List.Perm.eq_nil (h ▸ (sorted_split_perm_runs _ _).symm)
    · intro h
      exact List.Perm.eq_nil (h ▸ sorted_split_perm_runs _ _)

/-! ### `set_decomposition` -/

theorem string_view_eq_loop_iff (x y : List Nat) (h : x.length = y.length) :
    string_view_eq_loop x y = true ↔ x = y := by
  induction x generalizing y with
  | nil =>
    cases y with
    | nil => simp [string_view_eq_loop]
    | cons b ys => simp at h
  | cons a xs ih =>
    cases y with
    | nil => simp at h
    | cons b ys =>
      simp only [List.length_cons, Nat.add_right_cancel_iff] at h
      by_cases hab : a = b
      · subst hab
        simp [string_view_eq_loop, ih ys h]
      · simp [string_view_eq_loop, hab]

theorem string_view_eq_iff (x y : List Nat) : string_view_eq x y = true ↔ x = y := by
  unfold string_view_eq
  by_cases h : x.length = y.length
  · simp [h, string_view_eq_loop_iff x y h]
  · have hne : x ≠ y := fun e => h (by rw [e])
    simp [h, hne]

theorem any_string_view_eq (w : List Nat) (B : List (List Nat)) :
    B.any (fun v => string_view_eq w v) = decide (w ∈ B) := by
  induction B with
  | nil => simp
  | cons b bs ih =>
    rw [List.any_cons, ih]
    by_cases h : w = b
    · simp [h, (string_view_eq_iff b b).mpr rfl]
    · have : string_view_eq w b = false := by
        rw [← Bool.not_eq_true, string_view_eq_iff]; exact h
      simp [h, this]

theorem any_string_view_eq_flip (v : List Nat) (A : List (List Nat)) :
    A.any (fun w => string_view_eq w v) = decide (v ∈ A) := by
  induction A with
  | nil => simp
  | cons b bs ih =>
    rw [List.any_cons, ih]
    by_cases h : v = b
    · simp [h, (string_view_eq_iff b b).mpr rfl]
    · have : string_view_eq b v = false := by
        rw [← Bool.not_eq_true, string_view_eq_iff]; exact fun e => h e.symm
      simp [h, this]

theorem find_if_length_le {α : Type} (pred : α → Bool) (l : List α) :
    (find_if pred l).length ≤ l.length := by
  induction l with
  | nil => simp [find_if]
  | cons c cs ih =>
    by_cases h : pred c = true
    · simp [find_if, h]
    · simp only [find_if, h, if_false, List.length_cons, Bool.false_eq_true]; omega

theorem find_if_eq_nil_iff (cur : List Nat) (v : List (List Nat)) :
    find_if (fun b => string_view_eq cur b) v = [] ↔ cur ∉ v := by
  induction v with
  | nil => simp [find_if]
  | cons y ys ih =>
    by_cases h : cur = y
    · subst h
      simp [find_if, (string_view_eq_iff cur cur).mpr rfl]
    · have : string_view_eq cur y = false := by
        rw [← Bool.not_eq_true, string_view_eq_iff]; exact h
      simp [find_if, this, ih, h]

theorem erase_at_find_if (cur : List Nat) (v : List (List Nat)) :
    erase_at v (find_if (fun b => string_view_eq cur b) v) = v.erase cur := by
  induction v with
  | nil => simp [erase_at, find_if]
  | cons y ys ih =>
    by_cases h : cur = y
    · subst h
      simp [find_if, erase_at, (string_view_eq_iff cur cur).mpr rfl]
    · have hf : string_view_eq cur y = false := by
        rw [← Bool.not_eq_true, string_view_eq_iff]; exact h
      have hle := find_if_length_le (fun b => string_view_eq cur b) ys
      have hy : (y == cur) = false := by
        simpa using fun e : y = cur => h e.symm
      simp only [find_if, hf, if_false, Bool.false_eq_true, List.erase_cons, hy, cond_false]
      rw [← ih]
      unfold erase_at
      have e : (y :: ys).length - (find_if (fun b => string_view_eq cur b) ys).length
          = (ys.length - (find_if (fun b => string_view_eq cur b) ys).length) + 1 := by
        simp only [List.length_cons]; omega
      rw [e, List.take_succ_cons, List.cons_append]


theorem set_decomposition_loop_inv (A B : List (List Nat)) (hB : B.Nodup) :
    ∀ (rest done : List (List Nat)), done ++ rest = A → A.Nodup →
      set_decomposition_loop rest (done.filter (fun w => decide (w ∈ B)))
          (done.filter (fun w => !decide (w ∈ B))) (B.filter (fun v => !decide (v ∈ done))) =
        ⟨A.filter (fun w => !decide (w ∈ B)), B.filter (fun v => !decide (v ∈ A)),
          A.filter (fun w => decide (w ∈ B))⟩ := by
  intro rest
  induction rest with
  | nil =>
    intro done hA _
    rw [List.append_nil] at hA
    subst hA
    rfl
  | cons cur rest ih =>
    intro done hA hnd
    have hA' : (done ++ [cur]) ++ rest = A := by simpa using hA
    have hcur : cur ∉ done := by
      rw [← hA] at hnd
      have := (List.nodup_append.mp hnd).2.2
      intro hmem
      exact this hmem (List.mem_cons_self _ _) 
    have key := ih (done ++ [cur]) hA' hnd
    unfold set_decomposition_loop
    simp only [ne_eq, find_if_eq_nil_iff, erase_at_find_if, List.mem_filter, Bool.not_eq_true',
      decide_eq_false_iff_not, hcur, not_false_eq_true, and_true, not_not]
    by_cases hB' : cur ∈ B
    · simp only [hB', if_true]
      have e1 : List.filter (fun w => decide (w ∈ B)) (done ++ [cur]) =
          List.filter (fun w => decide (w ∈ B)) done ++ [cur] := by
        simp [List.filter_append, List.filter, hB']
      have e2 : List.filter (fun w => !decide (w ∈ B)) (done ++ [cur]) =
          List.filter (fun w => !decide (w ∈ B)) done := by
        simp [List.filter_append, List.filter, hB']
      have e3 : List.filter (fun v => !decide (v ∈ done ++ [cur])) B =
          (List.filter (fun v => !decide (v ∈ done)) B).erase cur := by
        rw [(hB.filter _).erase_eq_filter, List.filter_filter]
        apply List.filter_congr
        intro v _
        by_cases h1 : v ∈ done <;> by_cases h2 : v = cur <;> simp [h1, h2]
      rw [e1, e2, e3] at key
      exact key
    · simp only [hB', if_false]
      have e1 : List.filter (fun w => decide (w ∈ B)) (done ++ [cur]) =
          List.filter (fun w => decide (w ∈ B)) done := by
        simp [List.filter_append, List.filter, hB']
      have e2 : List.filter (fun w => !decide (w ∈ B)) (done ++ [cur]) =
          List.filter (fun w => !decide (w ∈ B)) done ++ [cur] := by
        simp [List.filter_append, List.filter, hB']
      have e3 : List.filter (fun v => !decide (v ∈ done ++ [cur])) B =
          List.filter (fun v => !decide (v ∈ done)) B := by
        apply List.filter_congr
        intro v hv
        have h2 : v ≠ cur := fun e => hB' (e ▸ hv)
        by_cases h1 : v ∈ done <;> simp [h1, h2]
      rw [e1, e2, e3] at key
      exact key

/-- C8: for word lists without duplicates after `dedupe`, `set_decomposition` returns
the words of `A` equal to some word of `B` (in `A`'s order) as the intersection,
the words of `A` equal to no word of `B` as `difference_ab`, and the words of
`B` equal to no word of `A` (in `B`'s order) as `difference_ba`. -/
theorem set_decomposition_computes_set_operations
    (dedupe : List (List Nat) → List (List Nat)) (a b : List (List Nat))
    (ha : (dedupe a).Nodup) (hb : (dedupe b).Nodup) :
    (set_decomposition dedupe a b).intersection =
      (dedupe a).filter (fun w => (dedupe b).any (fun v => string_view_eq w v)) ∧
    (set_decomposition dedupe a b).difference_ab =
      (dedupe a).filter (fun w => !(dedupe b).any (fun v => string_view_eq w v)) ∧
    (set_decomposition dedupe a b).difference_ba =
      (dedupe b).filter (fun v => !(dedupe a).any (fun w => string_view_eq w v)) := by
  have key := set_decomposition_loop_inv (dedupe a) (dedupe b) hb (dedupe a) [] rfl ha
  simp only [List.filter_nil, List.not_mem_nil, decide_False, Bool.not_false,
    List.filter_true] at key
  unfold set_decomposition
  rw [key]
  simp only [any_string_view_eq, any_string_view_eq_flip, and_self]

/-- Witness for C8 on `["a", "b"]` and `["b", "c"]`. -/
theorem set_decomposition_computes_set_operations_witness :
    ([[97], [98]] : List (List Nat)).Nodup ∧ ([[98], [99]] : List (List Nat)).Nodup ∧
    (set_decomposition id [[97], [98]] [[98], [99]]).intersection = [[98]] ∧
    (set_decomposition id [[97], [98]] [[98], [99]]).difference_ab = [[97]] ∧
    (set_decomposition id [[97], [98]] [[98], [99]]).difference_ba = [[99]] :=
  ⟨by decide, by decide,
    set_decomposition_computes_set_operations id [[97], [98]] [[98], [99]]
      (by decide) (by decide)⟩

theorem find_if_ne_nil_length {α : Type} (pred : α → Bool) (l : List α)
    (h : find_if pred l ≠ []) : 1 ≤ (find_if pred l).length :=
  List.length_pos.mpr h

theorem erase_at_length {α : Type} (v it : List α) (h1 : 1 ≤ it.length)
    (h2 : it.length ≤ v.length) : (erase_at v it).length + 1 = v.length := by
  simp only [erase_at, List.length_append, List.length_take, List.length_drop]
  omega

theorem set_decomposition_loop_count :
    ∀ (rest inter dab dba : List (List Nat)),
      (set_decomposition_loop rest inter dab dba).intersection.length +
          (set_decomposition_loop rest inter dab dba).difference_ab.length =
        inter.length + dab.length + rest.length ∧
      (set_decomposition_loop rest inter dab dba).intersection.length +
          (set_decomposition_loop rest inter dab dba).difference_ba.length =
        inter.length + dba.length := by
  intro rest
  induction rest with
  | nil => intro inter dab dba; simp [set_decomposition_loop]
  | cons cur rest ih =>
    intro inter dab dba
    simp only [set_decomposition_loop]
    by_cases h : find_if (fun current_b => string_view_eq cur current_b) dba = []
    · simp only [h, ne_eq, not_true_eq_false, if_false]
      have := ih inter (dab ++ [cur]) dba
      simp only [List.length_append, List.length_cons, List.length_nil] at this ⊢
      omega
    · simp only [h, ne_eq, not_false_eq_true, if_true]
      have := ih (inter ++ [cur]) dab
        (erase_at dba (find_if (fun current_b => string_view_eq cur current_b) dba))
      have hl := erase_at_length dba _ (find_if_ne_nil_length _ _ h)
        (find_if_length_le (fun current_b => string_view_eq cur current_b) dba)
      simp only [List.length_append, List.length_cons, List.length_nil] at this ⊢
      omega

/-- C16 (counting invariant, duplicates allowed): with `A`, `B` the word lists after
`dedupe`, `|intersection| + |difference_ab| = |A|` and
`|intersection| + |difference_ba| = |B|`; for example `A = [a, a]`,
`B = [a, a, b]` gives intersection `[a, a]`, no `difference_ab` and
`difference_ba = [b]`. -/
theorem set_decomposition_counting (dedupe : List (List Nat) → List (List Nat))
    (a b : List (List Nat)) :
    (set_decomposition dedupe a b).intersection.length +
        (set_decomposition dedupe a b).difference_ab.length = (dedupe a).length ∧
    (set_decomposition dedupe a b).intersection.length +
        (set_decomposition dedupe a b).difference_ba.length = (dedupe b).length ∧
    set_decomposition id [[97], [97]] [[97], [97], [98]] = ⟨[], [[98]], [[97], [97]]⟩ := by
  have h := set_decomposition_loop_count (dedupe a) [] [] (dedupe b)
  simp only [List.length_nil, Nat.zero_add] at h
  exact ⟨h.1, h.2, by decide⟩


/-! ### Word order and the token-set decomposition -/

theorem set_decomposition_self (dedupe : List (List Nat) → List (List Nat))
    (a b : List (List Nat)) (hN : (dedupe a).Nodup) (hab : dedupe a = dedupe b) :
    set_decomposition dedupe a b = ⟨[], [], dedupe a⟩ := by
  have key := set_decomposition_loop_inv (dedupe a) (dedupe a) hN (dedupe a) [] rfl hN
  simp only [List.filter_nil, List.not_mem_nil, decide_False, Bool.not_false,
    List.filter_true] at key
  unfold set_decomposition
  rw [← hab, key]
  congr 1
  · apply List.filter_eq_nil_iff.mpr
    intro w hw; simp [hw]
  · apply List.filter_eq_nil_iff.mpr
    intro w hw; simp [hw]
  · apply List.filter_eq_self.mpr
    intro w hw; simp [hw]

/-- C9, amended.  When the words of `b` are a rearrangement of the words of `a`,
`sorted_split` returns the same list for both.  When `a` and `b` merely have the
same set of words, and `dedupe` leaves a sorted list sorted, duplicate-free and
with the same words, `set_decomposition` of the two word lists has empty
differences and its intersection is the duplicate-free sorted word list. -/
theorem token_set_word_order (sizeof_CharT : Nat)
    (dedupe : List (List Nat) → List (List Nat))
    (hd : ∀ l : List (List Nat), l.Sorted lex_le →
      (dedupe l).Nodup ∧ (dedupe l).Sorted lex_le ∧ ∀ w, w ∈ dedupe l ↔ w ∈ l)
    (a b : List Nat) :
    ((nonspace_runs (is_space sizeof_CharT) a).Perm (nonspace_runs (is_space sizeof_CharT) b) →
      sorted_split sizeof_CharT a = sorted_split sizeof_CharT b) ∧
    ((∀ w, w ∈ nonspace_runs (is_space sizeof_CharT) a ↔
        w ∈ nonspace_runs (is_space sizeof_CharT) b) →
      (set_decomposition dedupe (sorted_split sizeof_CharT a)
        (sorted_split sizeof_CharT b)).difference_ab = [] ∧
      (set_decomposition dedupe (sorted_split sizeof_CharT a)
        (sorted_split sizeof_CharT b)).difference_ba = [] ∧
      (set_decomposition dedupe (sorted_split sizeof_CharT a)
        (sorted_split sizeof_CharT b)).intersection = dedupe (sorted_split sizeof_CharT a) ∧
      (dedupe (sorted_split sizeof_CharT a)).Nodup ∧
      (dedupe (sorted_split sizeof_CharT a)).Sorted lex_le ∧
      ∀ w, w ∈ dedupe (sorted_split sizeof_CharT a) ↔
        w ∈ nonspace_runs (is_space sizeof_CharT) a) := by
  have hsa := sorted_split_sorted sizeof_CharT a
  have hsb := sorted_split_sorted sizeof_CharT b
  have hpa := sorted_split_perm_runs sizeof_CharT a
  have hpb := sorted_split_perm_runs sizeof_CharT b
  constructor
  · intro hp
    exact sorted_lex_le_ext _ _ hsa hsb ((hpa.trans hp).trans hpb.symm)
  · intro hset
    obtain ⟨nA, sA, mA⟩ := hd _ hsa
    obtain ⟨nB, sB, mB⟩ := hd _ hsb
    have hAB : dedupe (sorted_split sizeof_CharT a) = dedupe (sorted_split sizeof_CharT b) := by
      apply sorted_lex_le_ext _ _ sA sB
      rw [List.perm_ext_iff_of_nodup nA nB]
      intro w
      rw [mA, mB, hpa.mem_iff, hpb.mem_iff]
      exact hset w
    rw [set_decomposition_self dedupe _ _ nA hAB]
    refine ⟨rfl, rfl, rfl, nA, sA, ?_⟩
    intro w
    rw [mA, hpa.mem_iff]


theorem dedup_contract (l : List (List Nat)) (h : l.Sorted lex_le) :
    l.dedup.Nodup ∧ l.dedup.Sorted lex_le ∧ ∀ w, w ∈ l.dedup ↔ w ∈ l :=
  ⟨List.nodup_dedup l, List.Pairwise.sublist (List.dedup_sublist l) h, fun _ => List.mem_dedup⟩

theorem runs_s4 : nonspace_runs (is_space 1) sentence_s4 =
    [[110, 101, 119], [121, 111, 114, 107], [109, 101, 116, 115], [118, 115],
      [97, 116, 108, 97, 110, 116, 97], [98, 114, 97, 118, 101, 115]] := by decide

theorem runs_s5 : nonspace_runs (is_space 1) sentence_s5 =
    [[97, 116, 108, 97, 110, 116, 97], [98, 114, 97, 118, 101, 115], [118, 115],
      [110, 101, 119], [121, 111, 114, 107], [109, 101, 116, 115]] := by decide

theorem perm_s4_s5 :
    (nonspace_runs (is_space 1) sentence_s4).Perm (nonspace_runs (is_space 1) sentence_s5) := by
  rw [runs_s4, runs_s5]; decide

/-- Witness for C9 on the test sentences `s4` and `s5`, with `List.dedup` for
`dedupe`. -/
theorem token_set_word_order_witness :
    sorted_split 1 sentence_s4 = sorted_split 1 sentence_s5 ∧
    (set_decomposition List.dedup (sorted_split 1 sentence_s4)
      (sorted_split 1 sentence_s5)).difference_ab = [] ∧
    (set_decomposition List.dedup (sorted_split 1 sentence_s4)
      (sorted_split 1 sentence_s5)).difference_ba = [] ∧
    (set_decomposition List.dedup (sorted_split 1 sentence_s4)
      (sorted_split 1 sentence_s5)).intersection =
      List.dedup (sorted_split 1 sentence_s4) :=
  ⟨(token_set_word_order 1 List.dedup dedup_contract sentence_s4 sentence_s5).1 perm_s4_s5,
   ((token_set_word_order 1 List.dedup dedup_contract sentence_s4 sentence_s5).2
      (fun _ => perm_s4_s5.mem_iff)).1,
   ((token_set_word_order 1 List.dedup dedup_contract sentence_s4 sentence_s5).2
      (fun _ => perm_s4_s5.mem_iff)).2.1,
   ((token_set_word_order 1 List.dedup dedup_contract sentence_s4 sentence_s5).2
      (fun _ => perm_s4_s5.mem_iff)).2.2.1⟩

/-- C9 as stated fails: `"a a"` and `"a"` consist of the same set of words, yet
`sorted_split` returns `["a", "a"]` for one and `["a"]` for the other. -/
theorem token_set_word_order_counterexample :
    (∀ w, w ∈ nonspace_runs (is_space 1) [97, 32, 97] ↔
      w ∈ nonspace_runs (is_space 1) [97]) ∧
    sorted_split 1 [97, 32, 97] = [[97], [97]] ∧
    sorted_split 1 [97] = [[97]] ∧
    sorted_split 1 [97, 32, 97] ≠ sorted_split 1 [97] := by
  refine ⟨?_, by decide, by decide, by decide⟩
  intro w
  have e1 : nonspace_runs (is_space 1) [97, 32, 97] = [[97], [97]] := by decide
  have e2 : nonspace_runs (is_space 1) [97] = [[97]] := by decide
  rw [e1, e2]
  simp

/-! ### Whitespace classification -/

theorem is_space_impl_1_iff (v : Nat) :
    is_space_impl_1 v = true ↔ (0x0009 ≤ v ∧ v ≤ 0x000D) ∨ (0x001C ≤ v ∧ v ≤ 0x0020) := by
  simp only [is_space_impl_1, Bool.or_eq_true, beq_iff_eq]
  omega

theorem is_space_impl_0_iff (ch : Nat) :
    is_space_impl_0 ch = true ↔
      (0x0009 ≤ ch ∧ ch ≤ 0x000D) ∨ (0x001C ≤ ch ∧ ch ≤ 0x001F) ∨ ch = 0x0020 ∨
      ch = 0x0085 ∨ ch = 0x00A0 ∨ ch = 0x1680 ∨ (0x2000 ≤ ch ∧ ch ≤ 0x200A) ∨
      ch = 0x2028 ∨ ch = 0x2029 ∨ ch = 0x202F ∨ ch = 0x205F ∨ ch = 0x3000 := by
  simp only [is_space_impl_0, Bool.or_eq_true, beq_iff_eq]
  omega

/-- C12: for code units of two or more bytes, `is_space` is true exactly on
U+0009..U+000D, U+001C..U+001F, U+0020, U+0085, U+00A0, U+1680, U+2000..U+200A,
U+2028, U+2029, U+202F, U+205F and U+3000, and false for every other value. -/
theorem is_space_wide_iff (sizeof_CharT : Nat) (h : 2 ≤ sizeof_CharT) (ch : Nat) :
    is_space sizeof_CharT ch = true ↔
      (0x0009 ≤ ch ∧ ch ≤ 0x000D) ∨ (0x001C ≤ ch ∧ ch ≤ 0x001F) ∨ ch = 0x0020 ∨
      ch = 0x0085 ∨ ch = 0x00A0 ∨ ch = 0x1680 ∨ (0x2000 ≤ ch ∧ ch ≤ 0x200A) ∨
      ch = 0x2028 ∨ ch = 0x2029 ∨ ch = 0x202F ∨ ch = 0x205F ∨ ch = 0x3000 := by
  have h1 : ¬ sizeof_CharT = 1 := by omega
  simp only [is_space, is_space_dispatch_tag, h1, if_false, Nat.zero_ne_one]
  exact is_space_impl_0_iff ch

/-- Witness for C12 with two-byte code units: U+2003 is whitespace, `A` and U+180E
are not. -/
theorem is_space_wide_iff_witness :
    (2 : Nat) ≤ 2 ∧ is_space 2 0x2003 = true ∧ is_space 2 0x0041 = false ∧
    is_space 2 0x180E = false :=
  ⟨by decide, (is_space_wide_iff 2 (by decide) 0x2003).mpr (by decide), by decide, by decide⟩

/-- C17: on the values 0..255 the one-byte and the wide classifier return the same
result except at 0x85 and 0xA0, which only the wide one treats as whitespace; in
particular they agree on 0..0x7F. -/
theorem is_space_impls_agree_except_two :
    (∀ v : Nat, v < 256 →
      ((is_space_impl_1 v = is_space_impl_0 v) ↔ (v ≠ 0x85 ∧ v ≠ 0xA0))) ∧
    is_space_impl_0 0x85 = true ∧ is_space_impl_1 0x85 = false ∧
    is_space_impl_0 0xA0 = true ∧ is_space_impl_1 0xA0 = false ∧
    (∀ v : Nat, v ≤ 0x7F → is_space_impl_1 v = is_space_impl_0 v) := by
  have key : ∀ v : Nat, v < 256 →
      ((is_space_impl_1 v = is_space_impl_0 v) ↔ (v ≠ 0x85 ∧ v ≠ 0xA0)) := by
    intro v hv
    rw [Bool.eq_iff_iff, is_space_impl_1_iff, is_space_impl_0_iff]
    omega
  refine ⟨key, by decide, by decide, by decide, by decide, ?_⟩
  intro v hv
  exact (key v (by omega)).mpr (by omega)

end Tokenisation

section Ratio

variable {α : Type} [DecidableEq α]

theorem lev_self (s : List α) : levenshtein_distance s s = 0 := by
  induction s with
  | nil => rfl
  | cons x xs ih => rw [lev_cons_same, ih]

theorem normalized_similarity_self (s : List α) (score_cutoff : ℚ) (h : score_cutoff ≤ 100) :
    normalized_similarity s s score_cutoff = 100 := by
  have hres : (if s.length = 0 ∧ s.length = 0 then (100 : ℚ)
      else 100 * (1 - (levenshtein_distance s s : ℚ) / (max s.length s.length : ℚ))) = 100 := by
    by_cases h0 : s.length = 0
    · simp [h0]
    · simp [h0, lev_self]
  unfold normalized_similarity
  simp only [hres]
  rw [if_neg (not_lt.mpr h)]

/-- C11 (identity of the similarity ratio): `ratio s s = 100` for every sequence,
the empty one included; the same holds for the normalized similarity under any
`score_cutoff` up to 100. -/
theorem ratio_identity (s : List α) :
    ratio s s = 100 ∧ ratio ([] : List α) [] = 100 ∧
    ∀ score_cutoff : ℚ, score_cutoff ≤ 100 → normalized_similarity s s score_cutoff = 100 :=
  ⟨normalized_similarity_self s 0 (by norm_num), normalized_similarity_self [] 0 (by norm_num),
    fun c hc => normalized_similarity_self s c hc⟩

/-- The model agrees with the `ratio` expectations of the test file on `"test"`
and the empty string. -/
theorem ratio_test_scenarios :
    ratio [116, 101, 115, 116] [116, 101, 115, 116] = 100 ∧
    ratio [116, 101, 115, 116] ([] : List Nat) = 0 ∧
    ratio ([] : List Nat) [116, 101, 115, 116] = 0 := by
  have e1 : levenshtein_distance [116, 101, 115, 116] ([] : List Nat) = 4 := by decide
  have e2 : levenshtein_distance ([] : List Nat) [116, 101, 115, 116] = 4 := by decide
  refine ⟨normalized_similarity_self _ 0 (by norm_num), ?_, ?_⟩
  · simp only [ratio, normalized_similarity, e1]
    norm_num
  · simp only [ratio, normalized_similarity, e2]
    norm_num

end Ratio

section FuzzDriver

/-- What the `if` of the driver tests: equal sizes together with a failed round trip. -/
theorem fuzz_iteration_throws_iff {Ops : Type} (env : FuzzEnv Ops) (s1 s2 : List Nat) :
    fuzz_iteration_throws env s1 s2 = true ↔
      ((env.size (env.levenshtein_editops s1 s2) : Int) = env.levenshtein_distance s1 s2 ∧
        s2 ≠ env.editops_apply (env.levenshtein_editops s1 s2) s1 s2) := by
  simp [fuzz_iteration_throws]

theorem faulty_env_loop (n : Nat) :
    ∀ s1 s2 : List Nat, s2 ≠ [] → fuzz_loop faulty_env n s1 s2 = Except.ok 0 := by
  induction n with
  | zero => intro s1 s2 _; rfl
  | succ n ih =>
    intro s1 s2 h2
    have hlen : s2.length ≠ 0 := fun h => h2 (List.length_eq_zero.mp h)
    have hno : fuzz_iteration_throws faulty_env s1 s2 = false := by
      simp only [fuzz_iteration_throws, faulty_env, List.length_nil, Bool.and_eq_false_imp,
        beq_iff_eq]
      intro h
      exact absurd (by exact_mod_cast h.symm) hlen
    have hnext : faulty_env.str_multiply s2 2 ≠ [] := by
      cases s2 with
      | nil => exact absurd rfl h2
      | cons c cs => simp [faulty_env, List.replicate]
    simp only [fuzz_loop, hno, Bool.false_eq_true, if_false]
    exact ih _ _ hnext

/-- C10 at the failing input: with a library that reports distance 1 for `"a"`,
`"b"`, returns no operations and gives back `"a"` when they are applied, both
defects are present, the `if` of the first iteration is false and the driver
returns 0 without throwing. -/
theorem fuzz_driver_misses_count_mismatch :
    ((faulty_env.size (faulty_env.levenshtein_editops [97] [98]) : Int) ≠
        faulty_env.levenshtein_distance [97] [98]) ∧
    faulty_env.editops_apply (faulty_env.levenshtein_editops [97] [98]) [97] [98] ≠ [98] ∧
    fuzz_iteration_throws faulty_env [97] [98] = false ∧
    LLVMFuzzerTestOneInput faulty_env [] = Except.ok 0 :=
  ⟨by decide, by decide, by decide, faulty_env_loop 10 [97] [98] (by decide)⟩

end FuzzDriver

end rapidfuzz
